import Mathlib

/-!
# Verification of the LitExplorer normalization-and-clustering core

Shallow embedding of the core algorithms of the repository
(`src/experiment_grouping.rs`, `src/models/parameter_value.rs`,
`src/yaml_parser.rs`) and proofs of the specification claims about them.

Modelling conventions:
* Rust `f64` values are modelled by `F64`: either `nan` or a finite value
  carried as an exact rational.  IEEE special values other than NaN do not
  occur in the claims under study; subtraction/absolute value on finite
  doubles is modelled exactly.
* Rust `HashMap<String, ParameterValue>` is modelled by an association list
  `Params` (`List (String × ParameterValue)`).  The hash-map invariant that
  keys are distinct becomes the explicit predicate `Params.WFKeys` used as a
  hypothesis where a theorem depends on it.  Hash-map iteration order is
  irrelevant wherever the source's result is deterministic; the list order
  plays that role.
* `std::collections::hash_map::DefaultHasher` is a foreign library whose
  digest is a function of the written byte stream.  It is modelled by the
  trace of written tokens (`HashToken`), rendered to a string: two equal
  write streams give equal digests, which is the only property the program
  relies on.
-/

set_option maxHeartbeats 1000000

namespace LitExplorer

/-- Model of a Rust `f64`: NaN or a finite value (exact rational). -/
inductive F64 where
  | nan : F64
  | fin : ℚ → F64
deriving DecidableEq, Repr

/-- `BasicParameterValue` from `src/models/parameter_value.rs`. -/
inductive BasicParameterValue where
  | str : String → BasicParameterValue
  | float : F64 → BasicParameterValue
  | int : ℤ → BasicParameterValue
  | bool : Bool → BasicParameterValue
deriving DecidableEq, Repr

/-- `ParameterValue` from `src/models/parameter_value.rs`: a basic value or a
(list of) nested parameter values. -/
inductive ParameterValue where
  | basic : BasicParameterValue → ParameterValue
  | list : List ParameterValue → ParameterValue
deriving Repr

mutual

/-- Structural (derived-`PartialEq`-style) boolean equality on
`ParameterValue`, by structural recursion. -/
def ParameterValue.beq : ParameterValue → ParameterValue → Bool
  | .basic a, .basic b => a == b
  | .list a, .list b => ParameterValue.beqList a b
  | _, _ => false

/-- Pointwise boolean equality on lists of `ParameterValue`. -/
def ParameterValue.beqList : List ParameterValue → List ParameterValue → Bool
  | [], [] => true
  | a :: as', b :: bs => ParameterValue.beq a b && ParameterValue.beqList as' bs
  | _, _ => false

end

mutual

theorem ParameterValue.beq_iff : (a b : ParameterValue) → (a.beq b = true ↔ a = b)
  | .basic _, .basic _ => by simp [ParameterValue.beq, beq_iff_eq]
  | .basic _, .list _ => by simp [ParameterValue.beq]
  | .list _, .basic _ => by simp [ParameterValue.beq]
  | .list xs, .list ys => by
      have h := ParameterValue.beqList_iff xs ys
      simp [ParameterValue.beq, h]

theorem ParameterValue.beqList_iff :
    (xs ys : List ParameterValue) → (ParameterValue.beqList xs ys = true ↔ xs = ys)
  | [], [] => by simp [ParameterValue.beqList]
  | [], _ :: _ => by simp [ParameterValue.beqList]
  | _ :: _, [] => by simp [ParameterValue.beqList]
  | x :: xs, y :: ys => by
      have h1 := ParameterValue.beq_iff x y
      have h2 := ParameterValue.beqList_iff xs ys
      simp [ParameterValue.beqList, h1, h2]

end

instance : DecidableEq ParameterValue :=
  fun a b => decidable_of_iff (ParameterValue.beq a b = true) (ParameterValue.beq_iff a b)

/-- `ToleranceConfig` from `src/models/config.rs` (fields used by the core). -/
structure ToleranceConfig where
  float_tolerance : ℚ
  int_tolerance : ℤ
  string_case_sensitive : Bool
deriving DecidableEq, Repr

/-- `GroupingConfig` from `src/models/config.rs` (fields used by the core). -/
structure GroupingConfig where
  grouping_parameters : Option (List String)
  similarity_threshold : Nat
  main_key : Option (List String)
deriving DecidableEq, Repr

/-- `IgnoredConfig` from `src/models/config.rs`. -/
structure IgnoredConfig where
  parameters : List String
deriving DecidableEq, Repr

/-- `Config` from `src/models/config.rs`, restricted to the fields the
normalization-and-clustering core reads (general/diff/tui/keybindings/
test-script sections are presentation-layer only and never reach the core). -/
structure Config where
  ignored_parameters : IgnoredConfig
  tolerance : ToleranceConfig
  grouping : GroupingConfig
deriving DecidableEq, Repr

/-- `BasicParameterValue::equals_with_tolerance`
(`src/models/parameter_value.rs`, lines 141-166). -/
def BasicParameterValue.equals_with_tolerance
    (a b : BasicParameterValue) (tolerance : ToleranceConfig) : Bool :=
  match a, b with
  | .str a, .str b =>
      if tolerance.string_case_sensitive then a == b else a.toLower == b.toLower
  | .float a, .float b =>
      match a, b with
      | .nan, .nan => true
      | .nan, .fin _ => false
      | .fin _, .nan => false
      | .fin a, .fin b => |a - b| ≤ tolerance.float_tolerance
  | .int a, .int b => |a - b| ≤ tolerance.int_tolerance
  | .bool a, .bool b => a == b
  | _, _ => false

mutual

/-- `ParameterValue::equals_with_tolerance`
(`src/models/parameter_value.rs`, lines 168-189): basics compare by the basic
comparison, lists compare by equal length and pairwise comparison in order
(expressed by the structurally recursive `listEqualsWithTolerance`),
mismatched variants are never equal. -/
def ParameterValue.equals_with_tolerance
    (tolerance : ToleranceConfig) : ParameterValue → ParameterValue → Bool
  | .basic a, .basic b => a.equals_with_tolerance b tolerance
  | .list a, .list b => listEqualsWithTolerance tolerance a b
  | _, _ => false

/-- Pairwise list comparison used by `ParameterValue.equals_with_tolerance`;
equivalent to the source's length check followed by a zipped all-pairs test. -/
def listEqualsWithTolerance
    (tolerance : ToleranceConfig) : List ParameterValue → List ParameterValue → Bool
  | [], [] => true
  | a :: as', b :: bs => a.equals_with_tolerance tolerance b
      && listEqualsWithTolerance tolerance as' bs
  | _, _ => false

end

/-- Model of `HashMap<String, ParameterValue>`: an association list.  The
hash-map invariant (distinct keys) is the explicit predicate `Params.WFKeys`. -/
abbrev Params : Type := List (String × ParameterValue)

/-- `HashMap::get`. -/
def Params.get? (p : Params) (k : String) : Option ParameterValue :=
  match List.find? (fun kv => kv.1 == k) p with
  | some kv => some kv.2
  | none => none

/-- `HashMap::contains_key`. -/
def Params.containsKey (p : Params) (k : String) : Bool :=
  (Params.get? p k).isSome

/-- The key list of an attribute mapping. -/
def Params.keys (p : Params) : List String := List.map Prod.fst p

/-- The hash-map representation invariant: keys are pairwise distinct. -/
def Params.WFKeys (p : Params) : Prop := (Params.keys p).Nodup

instance (p : Params) : Decidable (Params.WFKeys p) :=
  inferInstanceAs (Decidable (List.Nodup _))

theorem Params.WFKeys_cons {k : String} {v : ParameterValue} {p : Params} :
    Params.WFKeys ((k, v) :: p) ↔ k ∉ Params.keys p ∧ Params.WFKeys p := by
  simp [Params.WFKeys, Params.keys, List.nodup_cons]

/-- `count_different_parameters` (`src/experiment_grouping.rs`, lines
359-385): one difference for every key of `params1` that is absent from
`params2` or maps to a non-tolerant-equal value, plus one for every key of
`params2` absent from `params1`. -/
def count_different_parameters (params1 params2 : Params) (tolerance : Config) : Nat :=
  (List.filter (fun kv =>
      match Params.get? params2 kv.1 with
      | some value2 => !(ParameterValue.equals_with_tolerance tolerance.tolerance kv.2 value2)
      | none => true) params1).length
  + (List.filter (fun kv => !(Params.containsKey params1 kv.1)) params2).length

/-- The tolerant-equality relation exactly as claim C6 words it (spec-side
definition, to be compared with the source's `equals_with_tolerance`):
strings identical (lower-cased unless case-sensitive), floats both NaN or
within `float_tolerance`, ints within `int_tolerance`, bools identical,
lists of the same length elementwise equal in order, and mismatched
variants never equal. -/
def specTolerantEq (t : ToleranceConfig) : ParameterValue → ParameterValue → Prop
  | .basic (.str a), .basic (.str b) =>
      if t.string_case_sensitive then a = b else a.toLower = b.toLower
  | .basic (.float a), .basic (.float b) =>
      (a = .nan ∧ b = .nan) ∨ ∃ x y, a = .fin x ∧ b = .fin y ∧ |x - y| ≤ t.float_tolerance
  | .basic (.int a), .basic (.int b) => |a - b| ≤ t.int_tolerance
  | .basic (.bool a), .basic (.bool b) => a = b
  | .list a, .list b =>
      a.length = b.length ∧ ∀ p, p ∈ a.zip b → specTolerantEq t p.1 p.2
  | _, _ => False
termination_by a _ => sizeOf a
decreasing_by
  simp_wf
  have hm := (List.of_mem_zip (by assumption : p ∈ a.zip b)).1
  have := List.sizeOf_lt_of_mem hm
  omega

mutual

theorem equals_with_tolerance_iff_spec (t : ToleranceConfig) :
    (a b : ParameterValue) →
      (ParameterValue.equals_with_tolerance t a b = true ↔ specTolerantEq t a b)
  | .basic x, .basic y => by
      cases x <;> cases y <;>
        simp [ParameterValue.equals_with_tolerance,
          BasicParameterValue.equals_with_tolerance, specTolerantEq]
      case float.float a b => cases a <;> cases b <;> simp [specTolerantEq]
  | .basic _, .list _ => by
      simp [ParameterValue.equals_with_tolerance, specTolerantEq]
  | .list _, .basic _ => by
      simp [ParameterValue.equals_with_tolerance, specTolerantEq]
  | .list xs, .list ys => by
      have h := listEquals_iff_spec t xs ys
      simpa [ParameterValue.equals_with_tolerance, specTolerantEq] using h

theorem listEquals_iff_spec (t : ToleranceConfig) :
    (xs ys : List ParameterValue) →
      (listEqualsWithTolerance t xs ys = true ↔
        xs.length = ys.length ∧ ∀ p, p ∈ xs.zip ys → specTolerantEq t p.1 p.2)
  | [], [] => by simp [listEqualsWithTolerance]
  | [], _ :: _ => by simp [listEqualsWithTolerance]
  | _ :: _, [] => by simp [listEqualsWithTolerance]
  | x :: xs, y :: ys => by
      have h1 := equals_with_tolerance_iff_spec t x y
      have h2 := listEquals_iff_spec t xs ys
      simp only [listEqualsWithTolerance, Bool.and_eq_true, h1, h2, List.zip_cons_cons,
        List.length_cons, List.mem_cons]
      constructor
      · rintro ⟨hx, hlen, hall⟩
        refine ⟨by omega, ?_⟩
        rintro p (rfl | hp)
        · exact hx
        · exact hall p hp
      · rintro ⟨hlen, hall⟩
        exact ⟨hall (x, y) (Or.inl rfl), by omega, fun p hp => hall p (Or.inr hp)⟩

end

theorem beqSymm {α : Type} [BEq α] [LawfulBEq α] (a b : α) : (a == b) = (b == a) := by
  rcases Bool.eq_false_or_eq_true (a == b) with h | h <;>
    rcases Bool.eq_false_or_eq_true (b == a) with h2 | h2 <;> simp_all [beq_iff_eq]

mutual

theorem equals_with_tolerance_symm (t : ToleranceConfig) :
    (a b : ParameterValue) →
      ParameterValue.equals_with_tolerance t a b = ParameterValue.equals_with_tolerance t b a
  | .basic x, .basic y => by
      cases x <;> cases y <;>
        simp only [ParameterValue.equals_with_tolerance,
          BasicParameterValue.equals_with_tolerance] <;> try rfl
      case str.str a b => split <;> rw [beqSymm]
      case float.float a b => cases a <;> cases b <;> simp [abs_sub_comm]
      case int.int a b => rw [abs_sub_comm]
      case bool.bool a b => rw [beqSymm]
  | .basic _, .list _ => by simp [ParameterValue.equals_with_tolerance]
  | .list _, .basic _ => by simp [ParameterValue.equals_with_tolerance]
  | .list xs, .list ys => by
      have h := listEquals_symm t xs ys
      simpa [ParameterValue.equals_with_tolerance] using h

theorem listEquals_symm (t : ToleranceConfig) :
    (xs ys : List ParameterValue) →
      listEqualsWithTolerance t xs ys = listEqualsWithTolerance t ys xs
  | [], [] => rfl
  | [], _ :: _ => rfl
  | _ :: _, [] => rfl
  | x :: xs, y :: ys => by
      have h1 := equals_with_tolerance_symm t x y
      have h2 := listEquals_symm t xs ys
      simp [listEqualsWithTolerance, h1, h2]

end

/-- C6: the source's tolerant equality coincides, for every pair of attribute
values and every tolerance configuration, with the relation stated in the
spec: strings compare (case-insensitively unless configured), floats are
equal iff both NaN or within `float_tolerance`, ints iff within
`int_tolerance`, bools by identity, lists pointwise in order with equal
length, and mismatched variants are never equal. -/
theorem C6_tolerant_equality_characterization (t : ToleranceConfig)
    (a b : ParameterValue) :
    ParameterValue.equals_with_tolerance t a b = true ↔ specTolerantEq t a b :=
  equals_with_tolerance_iff_spec t a b

/-- Removal of all entries with a given key (proof infrastructure for the
hash-map model). -/
def Params.eraseKey (p : Params) (k : String) : Params :=
  List.filter (fun kv => !(kv.1 == k)) p

theorem Params.get?_cons (k' : String) (v : ParameterValue) (p : Params) (k : String) :
    Params.get? ((k', v) :: p) k = if k' = k then some v else Params.get? p k := by
  simp only [Params.get?, List.find?_cons]
  cases h : ((k', v).1 == k) <;> simp_all

theorem Params.keys_cons (k' : String) (v : ParameterValue) (p : Params) :
    Params.keys ((k', v) :: p) = k' :: Params.keys p := rfl

theorem Params.get?_eq_none {p : Params} {k : String} :
    Params.get? p k = none ↔ k ∉ Params.keys p := by
  induction p with
  | nil => simp [Params.get?, Params.keys]
  | cons kv rest ih =>
    obtain ⟨k', v⟩ := kv
    rw [Params.get?_cons, Params.keys_cons]
    by_cases h : k' = k
    · simp [h]
    · have h' : ¬ k = k' := fun hh => h hh.symm
      simp [h, h', ih]

theorem Params.containsKey_iff {p : Params} {k : String} :
    Params.containsKey p k = true ↔ k ∈ Params.keys p := by
  rw [Params.containsKey, Option.isSome_iff_ne_none, ne_eq, Params.get?_eq_none]
  simp

theorem Params.mem_of_get?_some {p : Params} {k : String} {v : ParameterValue}
    (h : Params.get? p k = some v) : (k, v) ∈ p := by
  induction p with
  | nil => simp [Params.get?] at h
  | cons kv rest ih =>
    obtain ⟨k', v'⟩ := kv
    rw [Params.get?_cons] at h
    by_cases hk : k' = k
    · simp [hk] at h
      simp [hk, h]
    · simp [hk] at h
      exact List.mem_cons_of_mem _ (ih h)

theorem Params.get?_of_mem {p : Params} {k : String} {v : ParameterValue}
    (hw : Params.WFKeys p) (h : (k, v) ∈ p) : Params.get? p k = some v := by
  induction p with
  | nil => simp at h
  | cons kv rest ih =>
    obtain ⟨k', v'⟩ := kv
    rw [Params.WFKeys, Params.keys_cons, List.nodup_cons] at hw
    rw [Params.get?_cons]
    rcases List.mem_cons.mp h with h | h
    · simp [Prod.ext_iff] at h
      simp [h.1, h.2]
    · have hk : k' ≠ k := by
        rintro rfl
        exact hw.1 (List.mem_map.mpr ⟨(k', v), h, rfl⟩)
      simp [hk]
      exact ih hw.2 h

theorem Params.eraseKey_of_not_mem {p : Params} {k : String}
    (h : k ∉ Params.keys p) : Params.eraseKey p k = p := by
  rw [Params.eraseKey, List.filter_eq_self]
  intro kv hkv
  simp only [Bool.not_eq_eq_eq_not, Bool.not_true, beq_eq_false_iff_ne, ne_eq]
  rintro rfl
  exact h (List.mem_map.mpr ⟨kv, hkv, rfl⟩)

theorem Params.get?_eraseKey {p : Params} {k k' : String} (h : k' ≠ k) :
    Params.get? (Params.eraseKey p k) k' = Params.get? p k' := by
  induction p with
  | nil => rfl
  | cons kv rest ih =>
    obtain ⟨k₀, v₀⟩ := kv
    by_cases hk : k₀ = k
    · subst hk
      have : Params.eraseKey ((k₀, v₀) :: rest) k₀ = Params.eraseKey rest k₀ := by
        simp [Params.eraseKey, List.filter_cons]
      rw [this, ih, Params.get?_cons]
      have hne : ¬ k₀ = k' := fun hh => h hh.symm
      simp [hne]
    · have : Params.eraseKey ((k₀, v₀) :: rest) k = (k₀, v₀) :: Params.eraseKey rest k := by
        simp [Params.eraseKey, List.filter_cons, hk]
      rw [this, Params.get?_cons, Params.get?_cons, ih]

theorem Params.keys_eraseKey_sublist (p : Params) (k : String) :
    List.Sublist (Params.keys (Params.eraseKey p k)) (Params.keys p) := by
  exact List.Sublist.map Prod.fst (List.filter_sublist p)

theorem Params.not_mem_keys_eraseKey (p : Params) (k : String) :
    k ∉ Params.keys (Params.eraseKey p k) := by
  intro hmem
  rcases List.mem_map.mp hmem with ⟨kv, hkv, hfst⟩
  rcases List.mem_filter.mp hkv with ⟨_, hpred⟩
  simp [hfst] at hpred

theorem Params.WFKeys_eraseKey {p : Params} (k : String) (hw : Params.WFKeys p) :
    Params.WFKeys (Params.eraseKey p k) :=
  List.Nodup.sublist (Params.keys_eraseKey_sublist p k) hw

theorem Params.WFKeys_perm {p q : Params} (hpq : List.Perm p q) (hw : Params.WFKeys p) :
    Params.WFKeys q :=
  (List.Perm.nodup_iff (List.Perm.map Prod.fst hpq)).mp hw

theorem Params.perm_cons_eraseKey {p : Params} {k : String} {v : ParameterValue}
    (hw : Params.WFKeys p) (h : Params.get? p k = some v) :
    List.Perm p ((k, v) :: Params.eraseKey p k) := by
  induction p with
  | nil => simp [Params.get?] at h
  | cons kv rest ih =>
    obtain ⟨k₀, v₀⟩ := kv
    rw [Params.WFKeys, Params.keys_cons, List.nodup_cons] at hw
    rw [Params.get?_cons] at h
    by_cases hk : k₀ = k
    · subst hk
      simp at h
      subst h
      have herase : Params.eraseKey ((k₀, v₀) :: rest) k₀ = Params.eraseKey rest k₀ := by
        simp [Params.eraseKey, List.filter_cons]
      rw [herase, Params.eraseKey_of_not_mem hw.1]
    · simp only [if_neg hk] at h
      have herase : Params.eraseKey ((k₀, v₀) :: rest) k = (k₀, v₀) :: Params.eraseKey rest k := by
        simp [Params.eraseKey, List.filter_cons, hk]
      rw [herase]
      exact List.Perm.trans (List.Perm.cons _ (ih hw.2 h)) (List.Perm.swap _ _ _)

theorem Params.get?_perm {p q : Params} (hw : Params.WFKeys p) (hpq : List.Perm p q)
    (k : String) : Params.get? p k = Params.get? q k := by
  have hwq : Params.WFKeys q := Params.WFKeys_perm hpq hw
  cases hp : Params.get? p k with
  | none =>
    rw [Params.get?_eq_none] at hp
    have : k ∉ Params.keys q := fun hmem => by
      rcases List.mem_map.mp hmem with ⟨kv, hkv, hfst⟩
      exact hp (List.mem_map.mpr ⟨kv, (List.Perm.mem_iff hpq).mpr hkv, hfst⟩)
    exact (Params.get?_eq_none.mpr this).symm
  | some v =>
    have hmem : (k, v) ∈ q := (List.Perm.mem_iff hpq).mp (Params.mem_of_get?_some hp)
    exact (Params.get?_of_mem hwq hmem).symm

theorem Params.containsKey_eq_decide (p : Params) (k : String) :
    Params.containsKey p k = decide (k ∈ Params.keys p) := by
  by_cases hm : k ∈ Params.keys p
  · rw [Params.containsKey_iff.mpr hm]
    simp [hm]
  · simp only [hm, decide_False]
    rcases Bool.eq_false_or_eq_true (Params.containsKey p k) with hb | hb
    · exact absurd (Params.containsKey_iff.mp hb) hm
    · exact hb

theorem Params.containsKey_perm {p p' : Params} (h : List.Perm p p') (k : String) :
    Params.containsKey p k = Params.containsKey p' k := by
  rw [Params.containsKey_eq_decide, Params.containsKey_eq_decide]
  simp only [decide_eq_decide]
  exact List.Perm.mem_iff (List.Perm.map Prod.fst h)

theorem Params.containsKey_cons (k : String) (v : ParameterValue) (p : Params) (k' : String) :
    Params.containsKey ((k, v) :: p) k' = ((k == k') || Params.containsKey p k') := by
  rw [Params.containsKey, Params.get?_cons]
  by_cases h : k = k' <;> simp [h, Params.containsKey]

theorem count_nil_left (q : Params) (cfg : Config) :
    count_different_parameters [] q cfg = q.length := by
  simp [count_different_parameters, Params.containsKey, Params.get?]

theorem count_nil_right (p : Params) (cfg : Config) :
    count_different_parameters p [] cfg = p.length := by
  simp [count_different_parameters, Params.get?]

theorem count_perm_left {p p' : Params} (h : List.Perm p p') (q : Params) (cfg : Config) :
    count_different_parameters p q cfg = count_different_parameters p' q cfg := by
  unfold count_different_parameters
  congr 1
  · exact List.Perm.length_eq (List.Perm.filter _ h)
  · apply congrArg List.length
    apply List.filter_congr
    intro kv _
    rw [Params.containsKey_perm h]

theorem count_perm_right (p : Params) {q q' : Params} (hw : Params.WFKeys q)
    (h : List.Perm q q') (cfg : Config) :
    count_different_parameters p q cfg = count_different_parameters p q' cfg := by
  unfold count_different_parameters
  congr 1
  · apply congrArg List.length
    apply List.filter_congr
    intro kv _
    rw [Params.get?_perm hw h kv.1]
  · exact List.Perm.length_eq (List.Perm.filter _ h)

theorem count_cons_decomp (cfg : Config) (k : String) (v : ParameterValue) (p q : Params)
    (hk : k ∉ Params.keys p) :
    count_different_parameters ((k, v) :: p) q cfg =
      (match Params.get? q k with
       | some w => if ParameterValue.equals_with_tolerance cfg.tolerance v w = true then 0 else 1
       | none => 1)
      + count_different_parameters p (Params.eraseKey q k) cfg := by
  unfold count_different_parameters
  rw [List.filter_cons]
  have hS1 : List.filter (fun kv => match Params.get? q kv.1 with
        | some value2 => !(ParameterValue.equals_with_tolerance cfg.tolerance kv.2 value2)
        | none => true) p
      = List.filter (fun kv => match Params.get? (Params.eraseKey q k) kv.1 with
        | some value2 => !(ParameterValue.equals_with_tolerance cfg.tolerance kv.2 value2)
        | none => true) p := by
    apply List.filter_congr
    intro kv hkv
    have hne : kv.1 ≠ k := fun hh => hk (hh ▸ List.mem_map.mpr ⟨kv, hkv, rfl⟩)
    rw [Params.get?_eraseKey hne]
  have hS2 : List.filter (fun kv => !(Params.containsKey ((k, v) :: p) kv.1)) q
      = List.filter (fun kv => !(Params.containsKey p kv.1)) (Params.eraseKey q k) := by
    rw [Params.eraseKey, List.filter_filter]
    apply List.filter_congr
    intro kv _
    rw [Params.containsKey_cons, beqSymm k kv.1]
    cases hb : (kv.1 == k) <;> cases hc : Params.containsKey p kv.1 <;> simp [hb, hc]
  rw [hS1, hS2]
  cases hget : Params.get? q k with
  | some w =>
    cases hteq : ParameterValue.equals_with_tolerance cfg.tolerance v w <;>
      (simp [hget, hteq]; try omega)
  | none =>
    simp [hget]
    omega

theorem count_cons_right_notmem (cfg : Config) (k : String) (v : ParameterValue)
    (p q : Params) (hq : k ∉ Params.keys q) :
    count_different_parameters q ((k, v) :: p) cfg =
      1 + count_different_parameters q p cfg := by
  unfold count_different_parameters
  have hS1 : List.filter (fun kv => match Params.get? ((k, v) :: p) kv.1 with
        | some value2 => !(ParameterValue.equals_with_tolerance cfg.tolerance kv.2 value2)
        | none => true) q
      = List.filter (fun kv => match Params.get? p kv.1 with
        | some value2 => !(ParameterValue.equals_with_tolerance cfg.tolerance kv.2 value2)
        | none => true) q := by
    apply List.filter_congr
    intro kv hkv
    have hne : ¬ k = kv.1 := fun hh => hq (hh ▸ List.mem_map.mpr ⟨kv, hkv, rfl⟩)
    rw [Params.get?_cons, if_neg hne]
  have hcont : Params.containsKey q k = false := by
    rcases Bool.eq_false_or_eq_true (Params.containsKey q k) with hb | hb
    · exact absurd (Params.containsKey_iff.mp hb) hq
    · exact hb
  rw [hS1, List.filter_cons]
  simp only [hcont, Bool.not_false, if_pos, List.length_cons]
  omega

theorem count_symm_aux (cfg : Config) :
    ∀ (p1 p2 : Params), Params.WFKeys p1 → Params.WFKeys p2 →
      count_different_parameters p1 p2 cfg = count_different_parameters p2 p1 cfg := by
  intro p1
  induction p1 with
  | nil =>
    intro p2 _ _
    rw [count_nil_left, count_nil_right]
  | cons kv p1 ih =>
    intro p2 h1 h2
    obtain ⟨k, v⟩ := kv
    rw [Params.WFKeys_cons] at h1
    rw [count_cons_decomp cfg k v p1 p2 h1.1]
    cases hget : Params.get? p2 k with
    | none =>
      have hkm : k ∉ Params.keys p2 := Params.get?_eq_none.mp hget
      rw [Params.eraseKey_of_not_mem hkm,
        count_cons_right_notmem cfg k v p1 p2 hkm, ih p2 h1.2 h2]
    | some w =>
      have hperm : List.Perm p2 ((k, w) :: Params.eraseKey p2 k) :=
        Params.perm_cons_eraseKey h2 hget
      rw [count_perm_left hperm ((k, v) :: p1) cfg]
      have hknotin : k ∉ Params.keys (Params.eraseKey p2 k) :=
        Params.not_mem_keys_eraseKey p2 k
      rw [count_cons_decomp cfg k w (Params.eraseKey p2 k) ((k, v) :: p1) hknotin]
      have herase : Params.eraseKey ((k, v) :: p1) k = p1 := by
        have : Params.eraseKey ((k, v) :: p1) k = Params.eraseKey p1 k := by
          simp [Params.eraseKey, List.filter_cons]
        rw [this, Params.eraseKey_of_not_mem h1.1]
      rw [herase, Params.get?_cons, if_pos rfl]
      have hwq : Params.WFKeys (Params.eraseKey p2 k) := Params.WFKeys_eraseKey k h2
      rw [ih (Params.eraseKey p2 k) h1.2 hwq]
      have hsymm := equals_with_tolerance_symm cfg.tolerance v w
      simp [hsymm]

/-- C9: the pairwise difference count used for group matching and similarity
is symmetric in its two attribute mappings (given the hash-map invariant that
each mapping's keys are distinct): keys present on both sides contribute via
the symmetric tolerant equality and keys present on one side contribute one
each. -/
theorem C9_count_different_parameters_symm (cfg : Config) (p1 p2 : Params)
    (h1 : Params.WFKeys p1) (h2 : Params.WFKeys p2) :
    count_different_parameters p1 p2 cfg = count_different_parameters p2 p1 cfg :=
  count_symm_aux cfg p1 p2 h1 h2

/-- Lexicographic comparison of character lists by code point; agrees with
Rust's `String` ordering (byte-wise UTF-8 order equals code-point order). -/
def charsLe : List Char → List Char → Bool
  | [], _ => true
  | _ :: _, [] => false
  | a :: as', b :: bs =>
      if a.toNat < b.toNat then true
      else if b.toNat < a.toNat then false
      else charsLe as' bs

/-- String ordering used when `compute_params_hash` sorts keys. -/
def strLe (a b : String) : Bool := charsLe a.data b.data

theorem charsLe_total : ∀ as' bs : List Char, charsLe as' bs = true ∨ charsLe bs as' = true
  | [], _ => Or.inl rfl
  | _ :: _, [] => Or.inr rfl
  | a :: as', b :: bs => by
      by_cases h1 : a.toNat < b.toNat
      · exact Or.inl (by simp [charsLe, h1])
      · by_cases h2 : b.toNat < a.toNat
        · exact Or.inr (by simp [charsLe, h1, h2])
        · rcases charsLe_total as' bs with h | h
          · exact Or.inl (by simp [charsLe, h1, h2, h])
          · exact Or.inr (by simp [charsLe, h1, h2, h])

theorem charsLe_trans : ∀ as' bs cs : List Char,
    charsLe as' bs = true → charsLe bs cs = true → charsLe as' cs = true
  | [], _, _ => fun _ _ => rfl
  | _ :: _, [], _ => fun h _ => by simp [charsLe] at h
  | _ :: _, _ :: _, [] => fun _ h => by simp [charsLe] at h
  | a :: as', b :: bs, c :: cs => fun h1 h2 => by
      simp only [charsLe] at h1 h2 ⊢
      split at h1 <;> rename_i hab
      · split at h2 <;> rename_i hbc
        · simp [show a.toNat < c.toNat by omega]
        · split at h2 <;> rename_i hcb
          · simp at h2
          · simp [show a.toNat < c.toNat by omega]
      · split at h1 <;> rename_i hba
        · simp at h1
        · split at h2 <;> rename_i hbc
          · simp [show a.toNat < c.toNat by omega]
          · split at h2 <;> rename_i hcb
            · simp at h2
            · have hac : ¬ a.toNat < c.toNat := by omega
              have hca : ¬ c.toNat < a.toNat := by omega
              simp only [hac, hca, if_false]
              exact charsLe_trans as' bs cs h1 h2

theorem charsLe_antisymm : ∀ as' bs : List Char,
    charsLe as' bs = true → charsLe bs as' = true → as' = bs
  | [], [] => fun _ _ => rfl
  | [], _ :: _ => fun _ h => by simp [charsLe] at h
  | _ :: _, [] => fun h _ => by simp [charsLe] at h
  | a :: as', b :: bs => fun h1 h2 => by
      simp only [charsLe] at h1 h2
      by_cases hab : a.toNat < b.toNat
      · have hba : ¬ b.toNat < a.toNat := by omega
        rw [if_neg hba, if_pos hab] at h2
        simp at h2
      · rw [if_neg hab] at h1
        by_cases hba : b.toNat < a.toNat
        · rw [if_pos hba] at h1
          simp at h1
        · rw [if_neg hba] at h1
          rw [if_neg hba, if_neg hab] at h2
          have heq : a.toNat = b.toNat := by omega
          have hchar : a = b := Char.ext (UInt32.toNat.inj heq)
          rw [hchar, charsLe_antisymm as' bs h1 h2]

theorem strLe_total (a b : String) : strLe a b = true ∨ strLe b a = true :=
  charsLe_total a.data b.data

theorem strLe_trans {a b c : String} (h1 : strLe a b = true) (h2 : strLe b c = true) :
    strLe a c = true :=
  charsLe_trans a.data b.data c.data h1 h2

theorem strLe_antisymm {a b : String} (h1 : strLe a b = true) (h2 : strLe b a = true) :
    a = b := by
  cases a; cases b
  exact congrArg String.mk (charsLe_antisymm _ _ h1 h2)

/-- One token written to the abstract `DefaultHasher` state.  The real
`DefaultHasher` digest is a function of the written byte stream; equal token
streams therefore give equal digests, which is the only property
`compute_params_hash` relies on. -/
inductive HashToken where
  | str : String → HashToken
  | floatBits : F64 → HashToken
  | int : ℤ → HashToken
  | bool : Bool → HashToken
  | len : Nat → HashToken
deriving DecidableEq, Repr

/-- Rust `f64::round`: round half away from zero. -/
def roundHalfAway (q : ℚ) : ℤ := if q < 0 then -round (-q) else round q

/-- The float pre-hash rounding `(f / float_tolerance).round() * float_tolerance`
of `compute_params_hash`.  When `float_tolerance = 0.0` the division yields an
IEEE infinity or NaN and the multiplication by `0.0` then yields NaN for every
input, so the result is NaN. -/
def roundToTolerance (tol : ℚ) : F64 → F64
  | .nan => .nan
  | .fin q => if tol = 0 then .nan else .fin ((roundHalfAway (q / tol) : ℚ) * tol)

mutual

/-- The inner helper `hash_parameter_value` of `compute_params_hash`
(`src/experiment_grouping.rs`, lines 268-302), as the stream of tokens
written to the hasher: strings are lower-cased unless case-sensitive, floats
are rounded to the tolerance grid and written by bit pattern, ints are
adjusted by `i - (i % (int_tolerance + 1))` (Rust `%` is truncating
remainder, `Int.tmod`; the source panics when `int_tolerance = -1`, a
configuration outside this model), bools written directly, lists write their
length then each element recursively. -/
def hash_parameter_value (config : Config) : ParameterValue → List HashToken
  | .basic (.str s) =>
      if config.tolerance.string_case_sensitive then [.str s] else [.str s.toLower]
  | .basic (.float f) => [.floatBits (roundToTolerance config.tolerance.float_tolerance f)]
  | .basic (.int i) => [.int (i - Int.tmod i (config.tolerance.int_tolerance + 1))]
  | .basic (.bool b) => [.bool b]
  | .list l => .len l.length :: hashTokenList config l

/-- Token stream of a list of values, element by element. -/
def hashTokenList (config : Config) : List ParameterValue → List HashToken
  | [] => []
  | x :: xs => hash_parameter_value config x ++ hashTokenList config xs

end

/-- Deterministic rendering of a token to text (stands for the digest
contribution). -/
def HashToken.render : HashToken → String
  | .str s => "s" ++ toString s.length ++ ":" ++ s
  | .floatBits f => "f:" ++ (match f with
      | .nan => "nan"
      | .fin q => toString q.num ++ "/" ++ toString q.den)
  | .int i => "i:" ++ toString i
  | .bool b => "b:" ++ toString b
  | .len n => "l:" ++ toString n

/-- Deterministic rendering of the whole written stream: the model of
`hasher.finish()` formatted as a string. -/
def renderTokens (ts : List HashToken) : String :=
  String.intercalate "|" (List.map HashToken.render ts)

/-- Key deduplication keeping the first occurrence; models collecting
`(param, value)` pairs into a `HashMap` in `compute_params_hash` (duplicates
can only arise from duplicate names in `grouping_parameters`, and then they
carry identical values, so first-wins equals last-wins). -/
def dedupKeys : Params → Params
  | [] => []
  | kv :: rest => kv :: dedupKeys (List.filter (fun kv2 => !(kv2.1 == kv.1)) rest)
termination_by p => p.length
decreasing_by
  simp_wf
  exact Nat.lt_succ_of_le (List.length_filter_le _ _)

/-- The `params_to_hash` selection of `compute_params_hash`: the
allow-listed keys found in `params` when grouping parameters are configured
(collected into a map, hence key-deduplicated), otherwise all of `params`. -/
def paramsToHash (params : Params) (config : Config) : Params :=
  match config.grouping.grouping_parameters with
  | some grouping_params =>
      dedupKeys (grouping_params.filterMap fun param =>
        (Params.get? params param).map fun value => (param, value))
  | none => params

/-- The `sorted_keys` step of `compute_params_hash`: keys sorted
lexicographically. -/
def hashSortedKeys (params_to_hash : Params) : List String :=
  List.insertionSort (fun a b => strLe a b = true) (Params.keys params_to_hash)

/-- `compute_params_hash` (`src/experiment_grouping.rs`, lines 264-336): the
parameters to hash are either the allow-listed keys found in `params` or all
of `params`; keys are sorted lexicographically; each key is written followed
by its value's token stream; the digest is the rendered stream.  (The
`.getD` default is never reached: every sorted key is a key of the map.) -/
def compute_params_hash (params : Params) (config : Config) : String :=
  renderTokens ((hashSortedKeys (paramsToHash params config)).flatMap fun key =>
    .str key :: hash_parameter_value config
      ((Params.get? (paramsToHash params config) key).getD (.basic (.bool false))))

/-- `VersionData` (`src/models/models.rs`): one run record.  Its `path` field
(the record's source directory) is never read by any of the algorithms under
study and is omitted; `version_num` is the `u32` run identifier. -/
structure VersionData where
  version_num : Nat
  hparams : Params
deriving DecidableEq, Repr

/-- `ExperimentGroup` (`src/models/models.rs`). -/
structure ExperimentGroup where
  group_id : String
  base_parameters : Params
  member_versions : List VersionData
deriving DecidableEq, Repr

instance : Inhabited ExperimentGroup := ⟨⟨"", [], []⟩⟩

/-- The acceptance test of the clustering loop in `group_versions`
(`src/experiment_grouping.rs`, lines 399-410): with an allow-list, every
allow-listed parameter must be present in BOTH the record and the group's
base parameters; without one, zero differences under tolerance. -/
def canAddToGroup (config : Config) (version : VersionData) (group : ExperimentGroup) : Bool :=
  match config.grouping.grouping_parameters with
  | some grouping_params =>
      grouping_params.all fun param =>
        Params.containsKey version.hparams param &&
          Params.containsKey group.base_parameters param
  | none =>
      count_different_parameters version.hparams group.base_parameters config == 0

/-- Scan of the existing groups in creation order: add the record to the
first group that accepts it, or report that none does. -/
def tryAddToGroups (config : Config) (version : VersionData) :
    List ExperimentGroup → Option (List ExperimentGroup)
  | [] => none
  | g :: gs =>
      if canAddToGroup config version g then
        some ({ g with member_versions := g.member_versions ++ [version] } :: gs)
      else
        (tryAddToGroups config version gs).map (fun gs' => g :: gs')

/-- One iteration of the clustering loop of `group_versions`: add the record
to the first accepting group, otherwise append a fresh singleton group keyed
by the record's canonical hash. -/
def insertVersion (config : Config) (groups : List ExperimentGroup)
    (version : VersionData) : List ExperimentGroup :=
  match tryAddToGroups config version groups with
  | some gs => gs
  | none =>
      groups ++ [{ group_id := compute_params_hash version.hparams config,
                   base_parameters := version.hparams,
                   member_versions := [version] }]

/-- `group_versions` (`src/experiment_grouping.rs`, lines 388-445): pop
records from the end of the input list, insert each one, then stably sort
each group's members by ascending `version_num` and the group list by
descending member count (Rust's `sort_by` is a stable sort; `insertionSort`
is the same stable sort). -/
def group_versions (config : Config) (versions : List VersionData) :
    List ExperimentGroup :=
  let groups := versions.reverse.foldl (insertVersion config) []
  let groups := groups.map fun g =>
    { g with member_versions :=
        List.insertionSort (fun a b => a.version_num ≤ b.version_num) g.member_versions }
  List.insertionSort (fun a b => b.member_versions.length ≤ a.member_versions.length) groups

theorem tryAddToGroups_members (config : Config) (version : VersionData) :
    ∀ (groups gs : List ExperimentGroup),
      tryAddToGroups config version groups = some gs →
      List.Perm (gs.flatMap fun g => g.member_versions)
        (version :: groups.flatMap fun g => g.member_versions) := by
  intro groups
  induction groups with
  | nil =>
    intro gs h
    rw [show tryAddToGroups config version [] = none from rfl] at h
    cases h
  | cons g groups ih =>
    intro gs h
    rw [tryAddToGroups] at h
    split at h
    · cases h
      simp only [List.flatMap_cons]
      exact List.Perm.append_right _ (List.perm_append_singleton _ _)
    · cases htry : tryAddToGroups config version groups with
      | none =>
        rw [htry] at h
        exact Option.noConfusion h
      | some gs' =>
        rw [htry] at h
        injection h with h
        subst h
        have ihh := ih gs' htry
        simp only [List.flatMap_cons]
        exact List.Perm.trans (List.Perm.append_left _ ihh) List.perm_middle

theorem insertVersion_members (config : Config) (groups : List ExperimentGroup)
    (version : VersionData) :
    List.Perm ((insertVersion config groups version).flatMap fun g => g.member_versions)
      (version :: groups.flatMap fun g => g.member_versions) := by
  rw [insertVersion]
  cases htry : tryAddToGroups config version groups with
  | some gs => exact tryAddToGroups_members config version groups gs htry
  | none =>
    simp only [List.flatMap_append, List.flatMap_cons, List.flatMap_nil, List.append_nil]
    exact List.perm_append_singleton _ _

theorem foldl_insertVersion_members (config : Config) :
    ∀ (vs : List VersionData) (gs : List ExperimentGroup),
      List.Perm ((vs.foldl (insertVersion config) gs).flatMap fun g => g.member_versions)
        ((gs.flatMap fun g => g.member_versions) ++ vs) := by
  intro vs
  induction vs with
  | nil => intro gs; simp
  | cons v vs ih =>
    intro gs
    rw [List.foldl_cons]
    refine List.Perm.trans (ih (insertVersion config gs v)) ?_
    refine List.Perm.trans (List.Perm.append_right vs (insertVersion_members config gs v)) ?_
    exact List.perm_middle.symm

/-- C4: for every configuration and input record list, the members of the
output groups of `group_versions`, taken together, are a permutation of the
input record list: every input record is a member of exactly one group
(counted with multiplicity) and the union of the groups' member lists is the
input set. -/
theorem C4_total_membership (config : Config) (versions : List VersionData) :
    List.Perm ((group_versions config versions).flatMap fun g => g.member_versions)
      versions := by
  rw [group_versions]
  refine List.Perm.trans (List.Perm.flatMap_right _ (List.perm_insertionSort _ _)) ?_
  rw [List.flatMap_map]
  refine List.Perm.trans
    (List.Perm.flatMap_left _ (fun g _ => List.perm_insertionSort _ g.member_versions)) ?_
  refine List.Perm.trans (foldl_insertVersion_members config versions.reverse []) ?_
  simp only [List.flatMap_nil, List.nil_append]
  exact versions.reverse_perm

theorem tryAddToGroups_first_match (config : Config) (version : VersionData) :
    ∀ (pre : List ExperimentGroup) (g : ExperimentGroup) (post : List ExperimentGroup),
      (∀ g' ∈ pre, canAddToGroup config version g' = false) →
      canAddToGroup config version g = true →
      tryAddToGroups config version (pre ++ g :: post) =
        some (pre ++ { g with member_versions := g.member_versions ++ [version] } :: post) := by
  intro pre
  induction pre with
  | nil =>
    intro g post _ hg
    simp [tryAddToGroups, hg]
  | cons g0 pre ih =>
    intro g post hpre hg
    have h0 : canAddToGroup config version g0 = false := hpre g0 (List.mem_cons_self g0 pre)
    rw [List.cons_append, tryAddToGroups, if_neg (by simp [h0]),
      ih g post (fun g' hg' => hpre g' (List.mem_cons_of_mem g0 hg')) hg]
    rfl

/-- C1 (amended): with an allow-list configured, the clustering step accepts
a record into the first existing group (in creation order) such that every
allow-listed attribute is present in BOTH the record's attribute mapping and
the group's base parameters (key presence only, no value comparison); the
record is appended to that group's members and all other groups are
unchanged. -/
theorem C1_allowlist_first_match (config : Config) (gp : List String)
    (version : VersionData) (pre post : List ExperimentGroup) (g : ExperimentGroup)
    (hgp : config.grouping.grouping_parameters = some gp)
    (hpre : ∀ g' ∈ pre, (gp.all fun param =>
        Params.containsKey version.hparams param &&
        Params.containsKey g'.base_parameters param) = false)
    (hg : (gp.all fun param =>
        Params.containsKey version.hparams param &&
        Params.containsKey g.base_parameters param) = true) :
    insertVersion config (pre ++ g :: post) version =
      pre ++ { g with member_versions := g.member_versions ++ [version] } :: post := by
  have hcan : ∀ g' : ExperimentGroup, canAddToGroup config version g' =
      (gp.all fun param =>
        Params.containsKey version.hparams param &&
        Params.containsKey g'.base_parameters param) := by
    intro g'
    rw [canAddToGroup, hgp]
  have htry := tryAddToGroups_first_match config version pre g post
    (fun g' hg' => (hcan g').trans (hpre g' hg')) ((hcan g).trans hg)
  rw [insertVersion, htry]

/-- The config for the C1 witness: allow-list `["a"]`. -/
def cfgC1W : Config := ⟨⟨[]⟩, ⟨0, 0, true⟩, ⟨some ["a"], 2, none⟩⟩

/-- Witness for C1 (amended): a concrete record carrying key `a` skips a
first group whose base lacks `a` and joins the second group, which has it. -/
theorem C1_allowlist_first_match_witness :
    insertVersion cfgC1W
        [⟨"g0", [("b", .basic (.int 5))], []⟩,
         ⟨"g1", [("a", .basic (.int 1))], []⟩]
        ⟨7, [("a", .basic (.int 0))]⟩ =
      [⟨"g0", [("b", .basic (.int 5))], []⟩,
       ⟨"g1", [("a", .basic (.int 1))], [⟨7, [("a", .basic (.int 0))]⟩]⟩] :=
  C1_allowlist_first_match cfgC1W ["a"] ⟨7, [("a", .basic (.int 0))]⟩
    [⟨"g0", [("b", .basic (.int 5))], []⟩] [] ⟨"g1", [("a", .basic (.int 1))], []⟩
    rfl (by decide) (by decide)

/-- The allow-list acceptance test exactly as claim C1 (and spec §4.5) words
it: every allow-listed attribute PRESENT IN THE GROUP'S BASE PARAMETERS is
also present in the record — vacuously true for attributes absent from the
base.  (Spec-side definition, contrasted with the source's test that
requires presence on both sides.) -/
def specAllowListMatch (grouping_params : List String) (base record : Params) : Bool :=
  grouping_params.all fun param =>
    !(Params.containsKey base param) || Params.containsKey record param

/-- The config for the C1 counterexample: allow-list `["a"]`. -/
def cfgC1X : Config := ⟨⟨[]⟩, ⟨0, 0, true⟩, ⟨some ["a"], 2, none⟩⟩

/-- Counterexample to C1 as stated: under allow-list `["a"]`, two records
with empty attribute mappings are clustered.  The record processed second
(run 0) satisfies the claim's acceptance condition against the sole existing
group (whose base parameters are also empty — `specAllowListMatch` holds
vacuously), so by the claim it should join that group; the code instead
creates a second singleton group, because its test also requires the
allow-listed key to be present. -/
theorem C1_counterexample :
    specAllowListMatch ["a"] [] [] = true ∧
    (group_versions cfgC1X [⟨0, []⟩, ⟨1, []⟩]).map
        (fun g => g.base_parameters) = [[], []] ∧
    (group_versions cfgC1X [⟨0, []⟩, ⟨1, []⟩]).map
        (fun g => g.member_versions.map fun v => v.version_num) = [[1], [0]] := by
  decide

mutual

theorem equals_with_tolerance_mono (t1 t2 : ToleranceConfig)
    (hf : t1.float_tolerance ≤ t2.float_tolerance)
    (hi : t1.int_tolerance ≤ t2.int_tolerance)
    (hs : t1.string_case_sensitive = t2.string_case_sensitive) :
    (a b : ParameterValue) → ParameterValue.equals_with_tolerance t1 a b = true →
      ParameterValue.equals_with_tolerance t2 a b = true
  | .basic x, .basic y => by
      intro h
      cases x <;> cases y <;>
        simp only [ParameterValue.equals_with_tolerance,
          BasicParameterValue.equals_with_tolerance] at h ⊢ <;>
        try exact h
      case str.str a b => rw [← hs]; exact h
      case float.float a b =>
        cases a <;> cases b <;> simp_all
        exact le_trans h hf
      case int.int a b =>
        simp_all
        exact le_trans h hi
  | .basic _, .list _ => by
      intro h
      simp [ParameterValue.equals_with_tolerance] at h
  | .list _, .basic _ => by
      intro h
      simp [ParameterValue.equals_with_tolerance] at h
  | .list xs, .list ys => by
      intro h
      simp only [ParameterValue.equals_with_tolerance] at h ⊢
      exact listEquals_mono t1 t2 hf hi hs xs ys h

theorem listEquals_mono (t1 t2 : ToleranceConfig)
    (hf : t1.float_tolerance ≤ t2.float_tolerance)
    (hi : t1.int_tolerance ≤ t2.int_tolerance)
    (hs : t1.string_case_sensitive = t2.string_case_sensitive) :
    (xs ys : List ParameterValue) → listEqualsWithTolerance t1 xs ys = true →
      listEqualsWithTolerance t2 xs ys = true
  | [], [] => fun _ => rfl
  | [], _ :: _ => fun h => by simp [listEqualsWithTolerance] at h
  | _ :: _, [] => fun h => by simp [listEqualsWithTolerance] at h
  | x :: xs, y :: ys => fun h => by
      simp only [listEqualsWithTolerance, Bool.and_eq_true] at h ⊢
      exact ⟨equals_with_tolerance_mono t1 t2 hf hi hs x y h.1,
        listEquals_mono t1 t2 hf hi hs xs ys h.2⟩

end

/-- C2 (amended): widening `float_tolerance` or `int_tolerance` never
increases the pairwise difference count between two attribute mappings; in
particular a record that perfectly matched a group anchor (zero differences)
still matches under the wider tolerance.  (The original group-level claim —
that widening tolerances never splits the groups produced by
`group_versions` — is false; see the counterexample: greedy clustering can
capture a record into an earlier group under the wider tolerance, separating
it from its former groupmates.) -/
theorem C2_pairwise_tolerance_monotonicity (cfg1 cfg2 : Config)
    (hf : cfg1.tolerance.float_tolerance ≤ cfg2.tolerance.float_tolerance)
    (hi : cfg1.tolerance.int_tolerance ≤ cfg2.tolerance.int_tolerance)
    (hs : cfg1.tolerance.string_case_sensitive = cfg2.tolerance.string_case_sensitive)
    (p1 p2 : Params) :
    count_different_parameters p1 p2 cfg2 ≤ count_different_parameters p1 p2 cfg1 ∧
    (count_different_parameters p1 p2 cfg1 = 0 →
      count_different_parameters p1 p2 cfg2 = 0) := by
  have hle : count_different_parameters p1 p2 cfg2 ≤
      count_different_parameters p1 p2 cfg1 := by
    unfold count_different_parameters
    have h1 : (List.filter (fun kv =>
        match Params.get? p2 kv.1 with
        | some value2 => !(ParameterValue.equals_with_tolerance cfg2.tolerance kv.2 value2)
        | none => true) p1).length ≤
      (List.filter (fun kv =>
        match Params.get? p2 kv.1 with
        | some value2 => !(ParameterValue.equals_with_tolerance cfg1.tolerance kv.2 value2)
        | none => true) p1).length := by
      rw [← List.countP_eq_length_filter, ← List.countP_eq_length_filter]
      apply List.countP_mono_left
      intro kv _ hkv
      cases hget : Params.get? p2 kv.1 with
      | none => simp
      | some v2 =>
        rw [hget] at hkv
        simp only [Bool.not_eq_true'] at hkv
        rcases Bool.eq_false_or_eq_true
            (ParameterValue.equals_with_tolerance cfg1.tolerance kv.2 v2) with hb | hb
        · exfalso
          have h2 := equals_with_tolerance_mono cfg1.tolerance cfg2.tolerance
            hf hi hs kv.2 v2 hb
          rw [h2] at hkv
          exact Bool.noConfusion hkv
        · simp [hb]
    exact Nat.add_le_add h1 (le_refl _)
  exact ⟨hle, fun h0 => Nat.le_zero.mp (h0 ▸ hle)⟩

/-- Configs for the C2 witness: identical except `int_tolerance` 0 vs 1. -/
def cfgC2a : Config := ⟨⟨[]⟩, ⟨0, 0, true⟩, ⟨none, 2, none⟩⟩

/-- See `cfgC2a`. -/
def cfgC2b : Config := ⟨⟨[]⟩, ⟨0, 1, true⟩, ⟨none, 2, none⟩⟩

/-- Witness for C2 (amended) at concrete mappings and configurations. -/
theorem C2_pairwise_tolerance_monotonicity_witness :
    count_different_parameters [("x", .basic (.int 1))] [("x", .basic (.int 2))] cfgC2b ≤
      count_different_parameters [("x", .basic (.int 1))] [("x", .basic (.int 2))] cfgC2a ∧
    (count_different_parameters [("x", .basic (.int 1))] [("x", .basic (.int 2))] cfgC2a = 0 →
      count_different_parameters [("x", .basic (.int 1))] [("x", .basic (.int 2))] cfgC2b = 0) :=
  C2_pairwise_tolerance_monotonicity cfgC2a cfgC2b (le_refl _) (by decide) rfl
    [("x", .basic (.int 1))] [("x", .basic (.int 2))]

/-- Config for the C2 counterexample, `int_tolerance = 9`. -/
def cfgC2X9 : Config := ⟨⟨[]⟩, ⟨0, 9, true⟩, ⟨none, 2, none⟩⟩

/-- Config for the C2 counterexample, `int_tolerance = 10`. -/
def cfgC2X10 : Config := ⟨⟨[]⟩, ⟨0, 10, true⟩, ⟨none, 2, none⟩⟩

/-- Counterexample to C2 as stated: three records with a single integer
attribute `x` of value 19, 10 and 0 (processed in pop order 0, 10, 19).
Under `int_tolerance = 9` the groups are `{10, 19}` and `{0}`; under the
wider `int_tolerance = 10` the record `x = 10` is captured by the earlier
group anchored at `x = 0`, giving groups `{0, 10}` and `{19}`.  Runs 10 and
19 shared a group under the smaller tolerance and are separated under the
larger one: widening the tolerance split a group. -/
theorem C2_counterexample :
    (group_versions cfgC2X9
        [⟨19, [("x", .basic (.int 19))]⟩, ⟨10, [("x", .basic (.int 10))]⟩,
         ⟨0, [("x", .basic (.int 0))]⟩]).map
        (fun g => g.member_versions.map fun v => v.version_num) = [[10, 19], [0]] ∧
    (group_versions cfgC2X10
        [⟨19, [("x", .basic (.int 19))]⟩, ⟨10, [("x", .basic (.int 10))]⟩,
         ⟨0, [("x", .basic (.int 0))]⟩]).map
        (fun g => g.member_versions.map fun v => v.version_num) = [[0, 10], [19]] := by
  decide

/-- Config for the C9 witness. -/
def cfgC9W : Config := ⟨⟨[]⟩, ⟨0, 0, true⟩, ⟨none, 2, none⟩⟩

/-- Witness for C9 at concrete mappings with distinct keys. -/
theorem C9_count_different_parameters_symm_witness :
    count_different_parameters [("a", .basic (.int 1))] [("b", .basic (.bool true))] cfgC9W =
      count_different_parameters [("b", .basic (.bool true))] [("a", .basic (.int 1))] cfgC9W :=
  C9_count_different_parameters_symm cfgC9W
    [("a", .basic (.int 1))] [("b", .basic (.bool true))] (by decide) (by decide)

/-- C7: the canonical hash is independent of the attribute mapping's key
insertion order: any two well-formed mappings holding the same key-value
pairs (as sets, i.e. up to permutation) hash to the same string, because
keys are sorted lexicographically before hashing.  Moreover, when grouping
parameters are configured the hash reads the mapping only through the
allow-listed keys: mappings agreeing on those keys hash identically. -/
theorem C7_hash_insertion_order_independent (config : Config) (p1 p2 : Params)
    (h1 : Params.WFKeys p1) (_h2 : Params.WFKeys p2) (hperm : List.Perm p1 p2) :
    compute_params_hash p1 config = compute_params_hash p2 config ∧
    (∀ gp, config.grouping.grouping_parameters = some gp →
      ∀ q1 q2 : Params, (∀ k ∈ gp, Params.get? q1 k = Params.get? q2 k) →
        compute_params_hash q1 config = compute_params_hash q2 config) := by
  constructor
  · have hget : ∀ k, Params.get? p1 k = Params.get? p2 k :=
      fun k => Params.get?_perm h1 hperm k
    cases hcase : config.grouping.grouping_parameters with
    | some gp =>
      have hpth : paramsToHash p1 config = paramsToHash p2 config := by
        simp only [paramsToHash, hcase]
        congr 1
        exact List.filterMap_congr fun param _ => by rw [hget param]
      rw [compute_params_hash, compute_params_hash, hpth]
    | none =>
      have hpth1 : paramsToHash p1 config = p1 := by simp [paramsToHash, hcase]
      have hpth2 : paramsToHash p2 config = p2 := by simp [paramsToHash, hcase]
      haveI : IsTotal String (fun a b => strLe a b = true) := ⟨fun a b => strLe_total a b⟩
      haveI : IsTrans String (fun a b => strLe a b = true) :=
        ⟨fun _ _ _ hab hbc => strLe_trans hab hbc⟩
      haveI : IsAntisymm String (fun a b => strLe a b = true) :=
        ⟨fun _ _ hab hba => strLe_antisymm hab hba⟩
      have hkeys : List.Perm (Params.keys p1) (Params.keys p2) :=
        List.Perm.map Prod.fst hperm
      have hsorted : hashSortedKeys p1 = hashSortedKeys p2 := by
        apply List.eq_of_perm_of_sorted (r := fun a b => strLe a b = true)
        · exact List.Perm.trans (List.perm_insertionSort _ _)
            (List.Perm.trans hkeys (List.perm_insertionSort _ _).symm)
        · exact List.sorted_insertionSort _ _
        · exact List.sorted_insertionSort _ _
      rw [compute_params_hash, compute_params_hash, hpth1, hpth2, hsorted]
      have hfun : (fun key => HashToken.str key :: hash_parameter_value config
          ((Params.get? p1 key).getD (.basic (.bool false)))) =
        (fun key => HashToken.str key :: hash_parameter_value config
          ((Params.get? p2 key).getD (.basic (.bool false)))) :=
        funext fun k => by rw [hget k]
      rw [hfun]
  · intro gp hcase q1 q2 hgp
    have hpth : paramsToHash q1 config = paramsToHash q2 config := by
      simp only [paramsToHash, hcase]
      congr 1
      exact List.filterMap_congr fun param hparam => by rw [hgp param hparam]
    rw [compute_params_hash, compute_params_hash, hpth]

/-- Config for the C7 witness (no allow-list). -/
def cfgC7W : Config := ⟨⟨[]⟩, ⟨0, 0, true⟩, ⟨none, 2, none⟩⟩

/-- Witness for C7: two insertion orders of the same two-entry mapping hash
to the same string. -/
theorem C7_hash_insertion_order_independent_witness :
    Params.WFKeys [("a", .basic (.int 1)), ("b", .basic (.bool true))] ∧
    compute_params_hash [("a", .basic (.int 1)), ("b", .basic (.bool true))] cfgC7W =
      compute_params_hash [("b", .basic (.bool true)), ("a", .basic (.int 1))] cfgC7W :=
  ⟨by decide,
    (C7_hash_insertion_order_independent cfgC7W
      [("a", .basic (.int 1)), ("b", .basic (.bool true))]
      [("b", .basic (.bool true)), ("a", .basic (.int 1))]
      (by decide) (by decide) (by decide)).1⟩

/-- `similar_groups.entry(group_id).or_default()`: insert an empty list for
the key if it is absent. -/
def entryOrDefault (m : List (String × List String)) (k : String) :
    List (String × List String) :=
  if m.any (fun kv => kv.1 == k) then m else m ++ [(k, [])]

/-- `similar_groups.get_mut(group_id).unwrap().push(v)`: append `v` to the
list stored under key `k`. -/
def pushSimilar (m : List (String × List String)) (k v : String) :
    List (String × List String) :=
  m.map fun kv => if kv.1 == k then (kv.1, kv.2 ++ [v]) else kv

/-- Body of the inner loop of `find_similar_groups` (index `j` against the
fixed outer index `i`): skip `i = j`, otherwise record `j`'s id as similar to
`i`'s id when the difference count is within the threshold. -/
def similarInnerStep (config : Config) (groups : List ExperimentGroup) (i : Nat)
    (m2 : List (String × List String)) (j : Nat) : List (String × List String) :=
  if i = j then m2
  else if count_different_parameters (groups.getD i default).base_parameters
      (groups.getD j default).base_parameters config ≤
      config.grouping.similarity_threshold then
    pushSimilar m2 (groups.getD i default).group_id (groups.getD j default).group_id
  else m2

/-- Body of the outer loop of `find_similar_groups`: ensure the entry for
group `i`'s id exists, then scan all `j`. -/
def similarOuterStep (config : Config) (groups : List ExperimentGroup)
    (m : List (String × List String)) (i : Nat) : List (String × List String) :=
  (List.range groups.length).foldl (similarInnerStep config groups i)
    (entryOrDefault m (groups.getD i default).group_id)

/-- `find_similar_groups` (`src/experiment_grouping.rs`, lines 448-480). -/
def find_similar_groups (groups : List ExperimentGroup) (config : Config) :
    List (String × List String) :=
  (List.range groups.length).foldl (similarOuterStep config groups) []

theorem pushSimilar_keys (m : List (String × List String)) (k v : String) :
    (pushSimilar m k v).map Prod.fst = m.map Prod.fst := by
  rw [pushSimilar, List.map_map]
  apply List.map_congr_left
  intro kv _
  simp only [Function.comp_apply]
  split <;> rfl

theorem mem_keys_entryOrDefault (m : List (String × List String)) (k : String) :
    k ∈ (entryOrDefault m k).map Prod.fst := by
  rw [entryOrDefault]
  split
  · rename_i h
    simp only [List.any_eq_true] at h
    obtain ⟨kv, hkv, hbeq⟩ := h
    exact List.mem_map.mpr ⟨kv, hkv, beq_iff_eq.mp hbeq⟩
  · simp

theorem keys_entryOrDefault_sub (m : List (String × List String)) (k k' : String)
    (h : k' ∈ m.map Prod.fst) : k' ∈ (entryOrDefault m k).map Prod.fst := by
  rw [entryOrDefault]
  split
  · exact h
  · simp only [List.map_append]
    exact List.mem_append_left _ h

theorem similarInner_keys (config : Config) (groups : List ExperimentGroup) (i : Nat) :
    ∀ (js : List Nat) (m : List (String × List String)),
      (js.foldl (similarInnerStep config groups i) m).map Prod.fst = m.map Prod.fst := by
  intro js
  induction js with
  | nil => intro m; rfl
  | cons j js ih =>
    intro m
    rw [List.foldl_cons, ih]
    rw [similarInnerStep]
    split
    · rfl
    · split
      · exact pushSimilar_keys m _ _
      · rfl

theorem similarOuter_keys_mono (config : Config) (groups : List ExperimentGroup) :
    ∀ (is' : List Nat) (m : List (String × List String)) (k : String),
      k ∈ m.map Prod.fst →
      k ∈ ((is'.foldl (similarOuterStep config groups) m).map Prod.fst) := by
  intro is'
  induction is' with
  | nil => intro m k h; exact h
  | cons i is' ih =>
    intro m k h
    rw [List.foldl_cons]
    apply ih
    rw [similarOuterStep, similarInner_keys]
    exact keys_entryOrDefault_sub m _ k h

theorem similarOuter_key_present (config : Config) (groups : List ExperimentGroup) :
    ∀ (is' : List Nat) (m : List (String × List String)) (i : Nat), i ∈ is' →
      (groups.getD i default).group_id ∈
        ((is'.foldl (similarOuterStep config groups) m).map Prod.fst) := by
  intro is'
  induction is' with
  | nil => intro m i h; simp at h
  | cons i0 is' ih =>
    intro m i h
    rw [List.foldl_cons]
    rcases List.mem_cons.mp h with rfl | h
    · apply similarOuter_keys_mono
      rw [similarOuterStep, similarInner_keys]
      exact mem_keys_entryOrDefault m _
    · exact ih _ i h

theorem entryOrDefault_noSelf (m : List (String × List String)) (k : String)
    (hinv : ∀ kv ∈ m, kv.1 ∉ kv.2) :
    ∀ kv ∈ entryOrDefault m k, kv.1 ∉ kv.2 := by
  intro kv hkv
  rw [entryOrDefault] at hkv
  split at hkv
  · exact hinv kv hkv
  · rcases List.mem_append.mp hkv with h | h
    · exact hinv kv h
    · simp at h
      simp [h]

theorem pushSimilar_noSelf (m : List (String × List String)) (k v : String)
    (hvk : v ≠ k) (hinv : ∀ kv ∈ m, kv.1 ∉ kv.2) :
    ∀ kv ∈ pushSimilar m k v, kv.1 ∉ kv.2 := by
  intro kv' hkv'
  rw [pushSimilar] at hkv'
  rcases List.mem_map.mp hkv' with ⟨kv, hkv, heq⟩
  by_cases hk : (kv.1 == k) = true
  · rw [if_pos hk] at heq
    subst heq
    simp only [List.mem_append, List.mem_singleton]
    rintro (h | h)
    · exact hinv kv hkv h
    · exact hvk (h ▸ (beq_iff_eq.mp hk))
  · rw [if_neg hk] at heq
    subst heq
    exact hinv kv hkv

theorem similarInner_noSelf (config : Config) (groups : List ExperimentGroup) (i : Nat)
    (hnd : (groups.map fun g => g.group_id).Nodup) (hi : i < groups.length) :
    ∀ (js : List Nat) (m : List (String × List String)),
      (∀ j ∈ js, j < groups.length) →
      (∀ kv ∈ m, kv.1 ∉ kv.2) →
      ∀ kv ∈ js.foldl (similarInnerStep config groups i) m, kv.1 ∉ kv.2 := by
  intro js
  induction js with
  | nil => intro m _ hinv; exact hinv
  | cons j js ih =>
    intro m hjs hinv
    rw [List.foldl_cons]
    apply ih _ (fun j' hj' => hjs j' (List.mem_cons_of_mem j hj'))
    rw [similarInnerStep]
    split
    · exact hinv
    · split
      · rename_i hij _
        apply pushSimilar_noSelf _ _ _ ?_ hinv
        have hj : j < groups.length := hjs j (List.mem_cons_self j js)
        intro habs
        apply hij
        have h1 : (groups.map fun g => g.group_id).get ⟨i, by simpa using hi⟩ =
            (groups.map fun g => g.group_id).get ⟨j, by simpa using hj⟩ := by
          simp only [List.get_eq_getElem, List.getElem_map]
          rw [← List.getD_eq_getElem groups default hi,
            ← List.getD_eq_getElem groups default hj, habs]
        simp only [List.get_eq_getElem] at h1
        exact (List.Nodup.getElem_inj_iff hnd).mp h1
      · exact hinv

theorem similarOuter_noSelf (config : Config) (groups : List ExperimentGroup)
    (hnd : (groups.map fun g => g.group_id).Nodup) :
    ∀ (is' : List Nat) (m : List (String × List String)),
      (∀ i ∈ is', i < groups.length) →
      (∀ kv ∈ m, kv.1 ∉ kv.2) →
      ∀ kv ∈ is'.foldl (similarOuterStep config groups) m, kv.1 ∉ kv.2 := by
  intro is'
  induction is' with
  | nil => intro m _ hinv; exact hinv
  | cons i is' ih =>
    intro m his hinv
    rw [List.foldl_cons]
    apply ih _ (fun i' hi' => his i' (List.mem_cons_of_mem i hi'))
    rw [similarOuterStep]
    apply similarInner_noSelf config groups i hnd (his i (List.mem_cons_self i is'))
    · intro j hj
      exact List.mem_range.mp hj
    · exact entryOrDefault_noSelf m _ hinv

/-- C8 (amended): in the similarity-finder output every group's `group_id`
appears as a key (possibly mapped to an empty list); and PROVIDED the groups
carry pairwise-distinct `group_id`s, no group's list of similar groups
contains that group's own `group_id`.  (The original unconditional
self-exclusion fails when two distinct groups share a `group_id` — the map is
keyed by the id string, so each pushes the other's identical id into the
shared entry; see the counterexample.) -/
theorem C8_similarity_keys_and_no_self (config : Config)
    (groups : List ExperimentGroup) :
    (∀ g ∈ groups, ∃ l, (g.group_id, l) ∈ find_similar_groups groups config) ∧
    ((groups.map fun g => g.group_id).Nodup →
      ∀ kv ∈ find_similar_groups groups config, kv.1 ∉ kv.2) := by
  constructor
  · intro g hg
    rcases List.mem_iff_getElem.mp hg with ⟨i, hi, hgi⟩
    have hkey : (groups.getD i default).group_id ∈
        ((find_similar_groups groups config).map Prod.fst) := by
      rw [find_similar_groups]
      exact similarOuter_key_present config groups (List.range groups.length) [] i
        (List.mem_range.mpr hi)
    rw [List.getD_eq_getElem groups default hi, hgi] at hkey
    rcases List.mem_map.mp hkey with ⟨kv, hkv, hfst⟩
    exact ⟨kv.2, by rw [← hfst]; exact hkv⟩
  · intro hnd kv hkv
    rw [find_similar_groups] at hkv
    exact similarOuter_noSelf config groups hnd (List.range groups.length) []
      (fun i hi => List.mem_range.mp hi) (by simp) kv hkv

/-- Config for the C8 witness and counterexample. -/
def cfgC8 : Config := ⟨⟨[]⟩, ⟨0, 0, true⟩, ⟨none, 2, none⟩⟩

/-- Witness for C8 (amended): with two groups of distinct ids `a`, `b` and
equal (empty) base parameters, the output maps `a` to `["b"]`, and the
theorem yields that `a` is not in its own similarity list. -/
theorem C8_similarity_keys_and_no_self_witness :
    (([⟨"a", [], []⟩, ⟨"b", [], []⟩] : List ExperimentGroup).map
        (fun g => g.group_id)).Nodup ∧
    ("a", ["b"]) ∈ find_similar_groups [⟨"a", [], []⟩, ⟨"b", [], []⟩] cfgC8 ∧
    "a" ∉ ["b"] :=
  ⟨by decide, by decide,
    (C8_similarity_keys_and_no_self cfgC8 [⟨"a", [], []⟩, ⟨"b", [], []⟩]).2
      (by decide) ("a", ["b"]) (by decide)⟩

/-- Counterexample to C8 as stated: two distinct groups that share the
`group_id` string `"a"` (identical base parameters hash identically, so the
pipeline can produce such groups).  Each direction of the pairwise scan
pushes the other group's id — the same string `"a"` — into the single map
entry keyed `"a"`: the group with id `"a"` lists its own `group_id` twice. -/
theorem C8_counterexample :
    find_similar_groups [⟨"a", [], []⟩, ⟨"a", [], []⟩] cfgC8 =
      [("a", ["a", "a"])] := by
  decide

/-- Rust's derived `PartialEq` for `BasicParameterValue`; floats by `f64`
`==` (false whenever either side is NaN). -/
def BasicParameterValue.rustEq : BasicParameterValue → BasicParameterValue → Bool
  | .str a, .str b => a == b
  | .float a, .float b =>
      match a, b with
      | .fin x, .fin y => x == y
      | _, _ => false
  | .int a, .int b => a == b
  | .bool a, .bool b => a == b
  | _, _ => false

mutual

/-- Rust's derived `PartialEq` for `ParameterValue`: structural equality,
except that a float NaN compares unequal to everything, itself included
(IEEE `f64` `==`).  This is the `==`/`!=` used by the common-parameter
detection in `create_version_data_list`. -/
def ParameterValue.rustEq : ParameterValue → ParameterValue → Bool
  | .basic a, .basic b => BasicParameterValue.rustEq a b
  | .list a, .list b => ParameterValue.rustEqList a b
  | _, _ => false

/-- Pointwise `rustEq` on lists (`Vec::eq`). -/
def ParameterValue.rustEqList : List ParameterValue → List ParameterValue → Bool
  | [], [] => true
  | a :: as', b :: bs => ParameterValue.rustEq a b && ParameterValue.rustEqList as' bs
  | _, _ => false

end

/-- No NaN in a basic value. -/
def BasicParameterValue.nanFreeB : BasicParameterValue → Bool
  | .float f =>
      match f with
      | .nan => false
      | .fin _ => true
  | _ => true

mutual

/-- No NaN occurs anywhere inside the value. -/
def ParameterValue.nanFree : ParameterValue → Bool
  | .basic b => BasicParameterValue.nanFreeB b
  | .list l => ParameterValue.nanFreeList l

/-- `nanFree` on lists. -/
def ParameterValue.nanFreeList : List ParameterValue → Bool
  | [] => true
  | a :: as' => ParameterValue.nanFree a && ParameterValue.nanFreeList as'

end

/-- Rust `{:.6}` fixed-point rendering of a nonnegative rational. -/
def formatFixed6Nonneg (q : ℚ) : String :=
  let n := round (q * 1000000)
  let i := n / 1000000
  let f := n % 1000000
  let fs := toString f
  toString i ++ "." ++ String.mk (List.replicate (6 - fs.length) '0') ++ fs

/-- Rust `{:.6}` fixed-point rendering of a finite `f64` value (exact binary
values never produce rounding ties, so the half-up rounding used here agrees
with the correctly-rounded Rust output; `-0.0` is outside the rational
model). -/
def formatFixed6 (q : ℚ) : String :=
  if q < 0 then "-" ++ formatFixed6Nonneg (-q) else formatFixed6Nonneg q

/-- `BasicParameterValue::to_string_repr`
(`src/models/parameter_value.rs`, lines 36-43): strings verbatim, floats with
six decimals (`{:.6}` prints `NaN` for NaN), ints and bools via their
standard rendering. -/
def BasicParameterValue.to_string_repr : BasicParameterValue → String
  | .str s => s
  | .float f =>
      match f with
      | .nan => "NaN"
      | .fin q => formatFixed6 q
  | .int n => toString n
  | .bool b => toString b

mutual

/-- `ParameterValue::to_simple_string` (also its `Display` rendering):
basics by `to_string_repr`, lists bracketed and comma-joined. -/
def ParameterValue.to_simple_string : ParameterValue → String
  | .basic basic_value => basic_value.to_string_repr
  | .list l => "[" ++ String.intercalate ", " (ParameterValue.toSimpleStringList l) ++ "]"

/-- Renderings of the elements of a list value. -/
def ParameterValue.toSimpleStringList : List ParameterValue → List String
  | [] => []
  | x :: xs => x.to_simple_string :: ParameterValue.toSimpleStringList xs

end

instance : Inhabited VersionData := ⟨⟨0, []⟩⟩

/-- The bucket key built in `create_version_data_list` (lines 79-92): the
`"key=value"` parts for each main key in configured order, joined by `", "`;
`none` when some main key is absent from the (filtered) mapping, in which
case the record joins no bucket. -/
def mkGroupKey (main_keys : List String) (hparams : Params) : Option String :=
  let parts := main_keys.filterMap fun main_key =>
    (Params.get? hparams main_key).map fun v =>
      main_key ++ "=" ++ ParameterValue.to_simple_string v
  if parts.length = main_keys.length then some (String.intercalate ", " parts) else none

/-- `HashMap::insert`: replace the value under an existing key, else append
the new entry. -/
def paramsInsert (m : Params) (k : String) (v : ParameterValue) : Params :=
  if m.any (fun kv => kv.1 == k) then
    m.map fun kv => if kv.1 == k then (k, v) else kv
  else m ++ [(k, v)]

/-- `filter_parameters` (`src/experiment_grouping.rs`, lines 204-237): with
grouping parameters, keep exactly the allow-listed keys found in `hparams`
and not ignored; otherwise keep every non-ignored key. -/
def filter_parameters (hparams : Params) (ignored_params : List String)
    (grouping_params : Option (List String)) : Params :=
  match grouping_params with
  | some params =>
      params.foldl (fun acc param_name =>
        match Params.get? hparams param_name with
        | some value =>
            if !(ignored_params.contains param_name) then paramsInsert acc param_name value
            else acc
        | none => acc) []
  | none => List.filter (fun kv => !(ignored_params.contains kv.1)) hparams

/-- Removal of a set of keys from a mapping (the per-key `HashMap::remove`
loop of `create_version_data_list`). -/
def removeKeys (p : Params) (ks : List String) : Params :=
  List.filter (fun kv => !(ks.contains kv.1)) p

/-- The validation error of `create_version_data_list` (lines 42-46; the
source wraps the key name in single quotes, omitted here). -/
def mainKeyErrorMsg (version_num : Nat) (main_key : String) : String :=
  "Version " ++ toString version_num ++ " is missing required main_key " ++ main_key

/-- The per-record main-key validation of `create_version_data_list`
(lines 38-49): with `main_key` configured, fail on the first configured key
absent from the record's raw mapping. -/
def validateMainKeys (config : Config) (version_num : Nat) (hparams : Params) :
    Except String Unit :=
  match config.grouping.main_key with
  | some main_keys =>
      match main_keys.find? (fun mk => !(Params.containsKey hparams mk)) with
      | some mk => .error (mainKeyErrorMsg version_num mk)
      | none => .ok ()
  | none => .ok ()

/-- The per-record loop of `create_version_data_list` (lines 33-66): records
arrive parsed as `(version_num, hparams)` pairs (file parsing and version
number extraction are the excluded collaborators); each record is validated
against the main keys and then filtered.  The record's directory path is
carried by the source but never read by the algorithms and is omitted. -/
def buildVersions (config : Config) : List (Nat × Params) → Except String (List VersionData)
  | [] => .ok []
  | (version_num, hparams) :: rest =>
      match validateMainKeys config version_num hparams with
      | .error e => .error e
      | .ok _ =>
          match buildVersions config rest with
          | .error e => .error e
          | .ok versions =>
              .ok ({ version_num := version_num,
                     hparams := filter_parameters hparams
                       config.ignored_parameters.parameters
                       config.grouping.grouping_parameters } :: versions)

/-- Insertion of an index into its bucket (the `groups.entry...push` of the
main-key bucketing), keeping buckets in first-seen key order. -/
def bucketInsert (m : List (String × List Nat)) (k : String) (i : Nat) :
    List (String × List Nat) :=
  match m with
  | [] => [(k, [i])]
  | (k0, is0) :: rest =>
      if k0 == k then (k0, is0 ++ [i]) :: rest
      else (k0, is0) :: bucketInsert rest k i

/-- The main-key buckets of `create_version_data_list` (lines 75-93): each
record index is assigned to the bucket of its `mkGroupKey` (records lacking
a main key after filtering join no bucket).  The source stores buckets in a
`HashMap` and visits them in arbitrary order; because distinct buckets have
disjoint index sets the per-bucket stripping operations commute, and this
model fixes first-seen key order. -/
def computeBuckets (mks : List String) (versions : List VersionData) :
    List (String × List Nat) :=
  (List.range versions.length).foldl (fun bs i =>
    match mkGroupKey mks (versions.getD i default).hparams with
    | some key => bucketInsert bs key i
    | none => bs) []

/-- The common-parameter scan of one bucket (lines 103-131): entries of the
FIRST member's mapping, excluding the main keys themselves, whose value is
`==`-equal (derived `PartialEq`, i.e. `rustEq`) in every other member. -/
def commonParams (mks : List String) (versions : List VersionData)
    (idxs : List Nat) : Params :=
  match idxs with
  | [] => []
  | i0 :: rest =>
      List.filter (fun kv =>
        !(mks.contains kv.1) &&
        rest.all fun i =>
          match Params.get? (versions.getD i default).hparams kv.1 with
          | some other_value => ParameterValue.rustEq other_value kv.2
          | none => false) (versions.getD i0 default).hparams

/-- Removal of the stripped keys from every member of a bucket
(lines 136-141). -/
def stripIndices (versions : List VersionData) (idxs : List Nat)
    (ks : List String) : List VersionData :=
  versions.mapIdx fun i version =>
    if idxs.contains i then { version with hparams := removeKeys version.hparams ks }
    else version

/-- The per-bucket loop of `create_version_data_list` (lines 96-143): for
each bucket with more than one member, record the common parameters in the
table and strip their keys from every member; buckets of size at most one
are skipped. -/
def stripBuckets (mks : List String) :
    List VersionData → List (String × List Nat) →
      List VersionData × List (String × Params)
  | versions, [] => (versions, [])
  | versions, (bk, idxs) :: rest =>
      if 1 < idxs.length then
        let common := commonParams mks versions idxs
        let versions' := stripIndices versions idxs (Params.keys common)
        let result := stripBuckets mks versions' rest
        (result.1, (bk, common) :: result.2)
      else
        stripBuckets mks versions rest

/-- The whole main-key path: bucket, then strip bucket by bucket. -/
def stripCommonMainKey (mks : List String) (versions : List VersionData) :
    List VersionData × List (String × Params) :=
  stripBuckets mks versions (computeBuckets mks versions)

/-- The global common-parameter scan (lines 147-171): entries of the first
record's mapping whose value is `==`-equal in every other record. -/
def globalCommonParams (versions : List VersionData) : Params :=
  match versions with
  | [] => []
  | first :: rest =>
      List.filter (fun kv =>
        rest.all fun version =>
          match Params.get? version.hparams kv.1 with
          | some other_value => ParameterValue.rustEq other_value kv.2
          | none => false) first.hparams

/-- The global stripping path (lines 144-180), used when neither `main_key`
nor `grouping_parameters` is configured. -/
def stripCommonGlobal (versions : List VersionData) : List VersionData :=
  match versions with
  | [] => []
  | first :: rest =>
      let common := globalCommonParams (first :: rest)
      (first :: rest).map fun version =>
        { version with hparams := removeKeys version.hparams (Params.keys common) }

/-- `create_version_data_list` (`src/experiment_grouping.rs`, lines 20-183)
over already-parsed records: validate and filter each record, sort by
`version_num` (stable), then either strip per main-key bucket (returning the
common-attributes table), strip globally (no main key, no allow-list), or
leave the records as filtered (allow-list configured). -/
def create_version_data_list (config : Config) (parsed : List (Nat × Params)) :
    Except String (List VersionData × List (String × Params)) :=
  match buildVersions config parsed with
  | .error e => .error e
  | .ok versions =>
      let versions := List.insertionSort
        (fun a b => a.version_num ≤ b.version_num) versions
      match config.grouping.main_key with
      | some main_keys => .ok (stripCommonMainKey main_keys versions)
      | none =>
          if config.grouping.grouping_parameters.isNone then
            .ok (stripCommonGlobal versions, [])
          else
            .ok (versions, [])

theorem validateMainKeys_error (config : Config) (mks : List String)
    (h : config.grouping.main_key = some mks) (vn : Nat) (hp : Params) (mk0 : String)
    (hfind : mks.find? (fun mk => !(Params.containsKey hp mk)) = some mk0) :
    validateMainKeys config vn hp = .error (mainKeyErrorMsg vn mk0) := by
  simp only [validateMainKeys, h, hfind]

theorem validateMainKeys_ok (config : Config) (mks : List String)
    (h : config.grouping.main_key = some mks) (vn : Nat) (hp : Params)
    (hall : ∀ mk ∈ mks, Params.containsKey hp mk = true) :
    validateMainKeys config vn hp = .ok () := by
  rw [validateMainKeys, h]
  have hfind : mks.find? (fun mk => !(Params.containsKey hp mk)) = none := by
    rw [List.find?_eq_none]
    intro mk hmk
    simp [hall mk hmk]
  simp only [hfind]

theorem buildVersions_ok (config : Config) (mks : List String)
    (h : config.grouping.main_key = some mks) :
    ∀ parsed : List (Nat × Params),
      (∀ r ∈ parsed, ∀ mk ∈ mks, Params.containsKey r.2 mk = true) →
      (buildVersions config parsed).isOk = true := by
  intro parsed
  induction parsed with
  | nil => exact fun _ => rfl
  | cons r rest ih =>
    intro hall
    obtain ⟨vn, hp⟩ := r
    have htail := ih (fun r hr => hall r (List.mem_cons_of_mem _ hr))
    have hok := validateMainKeys_ok config mks h vn hp
      (hall (vn, hp) (List.mem_cons_self _ _))
    cases hres : buildVersions config rest with
    | error e =>
      rw [hres] at htail
      exact Bool.noConfusion htail
    | ok vs =>
      simp only [buildVersions, hok, hres]
      rfl

theorem buildVersions_error (config : Config) (mks : List String)
    (h : config.grouping.main_key = some mks) :
    ∀ (parsed : List (Nat × Params)) (r : Nat × Params),
      parsed.find? (fun rec0 => !(mks.all fun mk => Params.containsKey rec0.2 mk)) = some r →
      buildVersions config parsed =
        .error (mainKeyErrorMsg r.1
          ((mks.find? fun mk => !(Params.containsKey r.2 mk)).getD "")) := by
  intro parsed
  induction parsed with
  | nil =>
    intro r hr
    simp [List.find?] at hr
  | cons r0 rest ih =>
    intro r hr
    obtain ⟨vn, hp⟩ := r0
    by_cases hbad : (mks.all fun mk => Params.containsKey hp mk) = true
    · rw [List.find?_cons_of_neg rest (by simp [hbad])] at hr
      have htail := ih r hr
      have hok := validateMainKeys_ok config mks h vn hp
        (fun mk hmk => List.all_eq_true.mp hbad mk hmk)
      simp only [buildVersions, hok, htail]
    · have hbad' : (mks.all fun mk => Params.containsKey hp mk) = false := by
        rw [← Bool.not_eq_true]
        exact hbad
      rw [List.find?_cons_of_pos rest (by simp [hbad'])] at hr
      have hr' : r = (vn, hp) := by
        cases hr
        rfl
      subst hr'
      have hex : ∃ mk0, mks.find? (fun mk => !(Params.containsKey hp mk)) = some mk0 := by
        rcases List.all_eq_false.mp hbad' with ⟨mk, hmk, hc⟩
        rw [Bool.not_eq_true] at hc
        have hsome : (mks.find? fun mk => !(Params.containsKey hp mk)).isSome = true := by
          rw [List.find?_isSome]
          exact ⟨mk, hmk, by simp [hc]⟩
        exact Option.isSome_iff_exists.mp hsome
      obtain ⟨mk0, hmk0⟩ := hex
      have herr := validateMainKeys_error config mks h vn hp mk0 hmk0
      simp only [buildVersions, herr, hmk0]
      rfl

/-- C3: with `main_key` configured, the grouping pass validates every parsed
record; if every record contains all configured main keys this validation
never fails and the pass returns a result, and otherwise the whole pass
returns the error naming the first offending record's `version_num` and the
first missing main key — by the `Except` type, no partial result (no version
list, no common-attributes table) is produced alongside the error. -/
theorem C3_main_key_validation (config : Config) (mks : List String)
    (parsed : List (Nat × Params)) (h : config.grouping.main_key = some mks) :
    ((∀ r ∈ parsed, ∀ mk ∈ mks, Params.containsKey r.2 mk = true) →
      (create_version_data_list config parsed).isOk = true) ∧
    (∀ r : Nat × Params,
      parsed.find? (fun rec0 => !(mks.all fun mk => Params.containsKey rec0.2 mk)) = some r →
      create_version_data_list config parsed =
        .error (mainKeyErrorMsg r.1
          ((mks.find? fun mk => !(Params.containsKey r.2 mk)).getD ""))) := by
  constructor
  · intro hall
    have hok := buildVersions_ok config mks h parsed hall
    cases hres : buildVersions config parsed with
    | error e =>
      rw [hres] at hok
      exact Bool.noConfusion hok
    | ok vs =>
      simp only [create_version_data_list, hres, h]
      rfl
  · intro r hfind
    rw [create_version_data_list, buildVersions_error config mks h parsed r hfind]

/-- Config for the C3 witness: main keys `["m"]`. -/
def cfgC3W : Config := ⟨⟨[]⟩, ⟨0, 0, true⟩, ⟨none, 2, some ["m"]⟩⟩

/-- Witness for C3: the second parsed record lacks main key `m`, and the
whole pass returns exactly the error naming run 2 and key `m`. -/
theorem C3_main_key_validation_witness :
    create_version_data_list cfgC3W
        [(1, [("m", .basic (.int 0))]), (2, [("x", .basic (.int 5))])] =
      .error (mainKeyErrorMsg 2 "m") :=
  (C3_main_key_validation cfgC3W ["m"]
      [(1, [("m", .basic (.int 0))]), (2, [("x", .basic (.int 5))])] rfl).2
    (2, [("x", .basic (.int 5))]) (by decide)

/-- Model of `serde_yaml::Number`: `as_i64` succeeds exactly for the integer
case, otherwise `as_f64` gives a float (u64 values above `i64::MAX` are
outside the model, so the "unsupported number format" branch is
unreachable). -/
inductive YamlNumber where
  | int : ℤ → YamlNumber
  | float : F64 → YamlNumber
deriving DecidableEq, Repr

/-- Model of `serde_yaml::Value`, the raw hierarchical record fed to the
flattener. -/
inductive YamlValue where
  | null : YamlValue
  | bool : Bool → YamlValue
  | number : YamlNumber → YamlValue
  | str : String → YamlValue
  | seq : List YamlValue → YamlValue
  | mapping : List (YamlValue × YamlValue) → YamlValue
  | tagged : YamlValue → YamlValue
deriving Repr

/-- The leaf test of the sequence homogeneity check
(`src/yaml_parser.rs`, line 44): string, number or bool. -/
def isSimpleYaml : YamlValue → Bool
  | .str _ => true
  | .number _ => true
  | .bool _ => true
  | _ => false

/-- `base_value_to_parameter_value` (`src/yaml_parser.rs`, lines 77-92). -/
def base_value_to_parameter_value : YamlValue → Except String ParameterValue
  | .str s => .ok (.basic (.str s))
  | .number (.int i) => .ok (.basic (.int i))
  | .number (.float f) => .ok (.basic (.float f))
  | .bool b => .ok (.basic (.bool b))
  | _ => .error "Unexpected YAML value type"

mutual

/-- `flatten_yaml_value` (`src/yaml_parser.rs`, lines 27-72): mappings
recurse with `-`-joined paths (string keys only), sequences of only simple
leaves become one `List` value at the current path while other sequences
recurse with the element index appended, tags are transparent, nulls are
dropped, and remaining leaves are converted and inserted. -/
def flatten_yaml_value (value : YamlValue) (output : Params) (path : String) :
    Except String Params :=
  match value with
  | .mapping map => flattenMapping map output path
  | .seq seq =>
      if seq.all isSimpleYaml then
        match seqToList seq with
        | .ok list => .ok (paramsInsert output path (.list list))
        | .error e => .error e
      else
        flattenSeqComplex seq output path 0
  | .tagged v => flatten_yaml_value v output path
  | .null => .ok output
  | v =>
      match base_value_to_parameter_value v with
      | .ok pv => .ok (paramsInsert output path pv)
      | .error e => .error e

/-- The mapping loop of `flatten_yaml_value`: visit each child with its key
appended to the path (empty prefix omitted for top-level keys); non-string
keys fail. -/
def flattenMapping (map : List (YamlValue × YamlValue)) (output : Params)
    (path : String) : Except String Params :=
  match map with
  | [] => .ok output
  | (key, val) :: rest =>
      match key with
      | .str key_str =>
          match flatten_yaml_value val output
              (if path.isEmpty then key_str else path ++ "-" ++ key_str) with
          | .ok output' => flattenMapping rest output' path
          | .error e => .error e
      | _ => .error "Non-string key in mapping"

/-- The complex-sequence loop of `flatten_yaml_value`: each element is
flattened with its index appended to the path. -/
def flattenSeqComplex (seq : List YamlValue) (output : Params) (path : String)
    (i : Nat) : Except String Params :=
  match seq with
  | [] => .ok output
  | item :: rest =>
      match flatten_yaml_value item output (path ++ "-" ++ toString i) with
      | .ok output' => flattenSeqComplex rest output' path (i + 1)
      | .error e => .error e

/-- Conversion of a homogeneous sequence's elements. -/
def seqToList (seq : List YamlValue) : Except String (List ParameterValue) :=
  match seq with
  | [] => .ok []
  | v :: rest =>
      match base_value_to_parameter_value v with
      | .ok pv =>
          match seqToList rest with
          | .ok list => .ok (pv :: list)
          | .error e => .error e
      | .error e => .error e

end

/-- C10: flattening a hierarchical value with an empty sequence at some path
emits that path as a key mapped to an empty `List` value — the homogeneity
check over zero elements holds vacuously, so the key is inserted rather than
dropped.  First conjunct: the flattener's behavior on an empty-sequence node
for every accumulated output and path; second conjunct: a composite record
`{a: []}` whose flattening contains `a ↦ List []`. -/
theorem C10_empty_sequence_flattens_to_empty_list :
    (∀ (output : Params) (path : String),
      flatten_yaml_value (.seq []) output path =
        .ok (paramsInsert output path (.list []))) ∧
    flatten_yaml_value (.mapping [(.str "a", .seq [])]) [] "" =
      .ok [("a", .list [])] :=
  ⟨fun _ _ => rfl, rfl⟩

theorem allCongr {α : Type} {p q : α → Bool} :
    ∀ {l : List α}, (∀ a ∈ l, p a = q a) → l.all p = l.all q
  | [], _ => rfl
  | a :: l, h => by
      simp only [List.all_cons]
      rw [h a (List.mem_cons_self a l),
        allCongr fun a' ha' => h a' (List.mem_cons_of_mem a ha')]

theorem BasicParameterValue.rustEq_iffB (x y : BasicParameterValue) :
    BasicParameterValue.rustEq x y = true ↔
      x = y ∧ BasicParameterValue.nanFreeB x = true := by
  cases x <;> cases y <;>
    simp [BasicParameterValue.rustEq, BasicParameterValue.nanFreeB]
  case float.float a b => cases a <;> cases b <;> simp

mutual

theorem ParameterValue.rustEq_iff : (a b : ParameterValue) →
    (ParameterValue.rustEq a b = true ↔ a = b ∧ ParameterValue.nanFree a = true)
  | .basic x, .basic y => by
      simp [ParameterValue.rustEq, ParameterValue.nanFree,
        BasicParameterValue.rustEq_iffB x y]
  | .basic x, .list _ => by simp [ParameterValue.rustEq]
  | .list _, .basic _ => by simp [ParameterValue.rustEq]
  | .list xs, .list ys => by
      have h := ParameterValue.rustEqList_iff xs ys
      simp [ParameterValue.rustEq, ParameterValue.nanFree, h]

theorem ParameterValue.rustEqList_iff : (xs ys : List ParameterValue) →
    (ParameterValue.rustEqList xs ys = true ↔
      xs = ys ∧ ParameterValue.nanFreeList xs = true)
  | [], [] => by simp [ParameterValue.rustEqList, ParameterValue.nanFreeList]
  | [], _ :: _ => by simp [ParameterValue.rustEqList]
  | _ :: _, [] => by simp [ParameterValue.rustEqList]
  | x :: xs, y :: ys => by
      have h1 := ParameterValue.rustEq_iff x y
      have h2 := ParameterValue.rustEqList_iff xs ys
      simp only [ParameterValue.rustEqList, ParameterValue.nanFreeList,
        Bool.and_eq_true, h1, h2, List.cons.injEq]
      tauto

end

theorem removeKeys_containsKey_mem {p : Params} {ks : List String} {k : String}
    (hk : ks.contains k = true) :
    Params.containsKey (removeKeys p ks) k = false := by
  rcases Bool.eq_false_or_eq_true (Params.containsKey (removeKeys p ks) k) with hb | hb
  · exfalso
    rw [Params.containsKey, Option.isSome_iff_exists] at hb
    obtain ⟨v, hv⟩ := hb
    have hmem := Params.mem_of_get?_some hv
    rcases List.mem_filter.mp hmem with ⟨_, hpred⟩
    simp only [hk] at hpred
    exact Bool.noConfusion hpred
  · exact hb

theorem removeKeys_get?_notmem {p : Params} {ks : List String} {k : String}
    (hk : ks.contains k = false) :
    Params.get? (removeKeys p ks) k = Params.get? p k := by
  induction p with
  | nil => rfl
  | cons kv rest ih =>
    obtain ⟨k0, v0⟩ := kv
    by_cases hk0 : ks.contains k0 = true
    · have hne : ¬ k0 = k := by
        rintro rfl
        rw [hk0] at hk
        exact Bool.noConfusion hk
      have hdrop : removeKeys ((k0, v0) :: rest) ks = removeKeys rest ks := by
        rw [removeKeys, removeKeys, List.filter_cons]
        simp only [hk0, Bool.not_true, Bool.false_eq_true, if_false]
      rw [hdrop, ih, Params.get?_cons, if_neg hne]
    · have hkeep : removeKeys ((k0, v0) :: rest) ks = (k0, v0) :: removeKeys rest ks := by
        have hk0' : ks.contains k0 = false := by
          rcases Bool.eq_false_or_eq_true (ks.contains k0) with hb | hb
          · exact absurd hb hk0
          · exact hb
        rw [removeKeys, removeKeys, List.filter_cons]
        simp only [hk0', Bool.not_false, if_true]
      rw [hkeep, Params.get?_cons, Params.get?_cons, ih]

theorem stripIndices_length (versions : List VersionData) (idxs : List Nat)
    (ks : List String) : (stripIndices versions idxs ks).length = versions.length := by
  simp [stripIndices, List.length_mapIdx]

theorem stripIndices_getD_mem (versions : List VersionData) (idxs : List Nat)
    (ks : List String) (i : Nat) (hi : i < versions.length)
    (hmem : idxs.contains i = true) :
    (stripIndices versions idxs ks).getD i default =
      { versions.getD i default with
        hparams := removeKeys (versions.getD i default).hparams ks } := by
  have hi' : i < (stripIndices versions idxs ks).length := by
    rw [stripIndices_length]
    exact hi
  rw [List.getD_eq_getElem _ _ hi', List.getD_eq_getElem _ _ hi]
  rw [show (stripIndices versions idxs ks)[i] =
    (fun i version => if idxs.contains i then
      { version with hparams := removeKeys version.hparams ks } else version) i versions[i]
    from List.getElem_mapIdx]
  simp only [hmem, if_pos]

theorem stripIndices_getD_notmem (versions : List VersionData) (idxs : List Nat)
    (ks : List String) (i : Nat) (hmem : idxs.contains i = false) :
    (stripIndices versions idxs ks).getD i default = versions.getD i default := by
  by_cases hi : i < versions.length
  · have hi' : i < (stripIndices versions idxs ks).length := by
      rw [stripIndices_length]
      exact hi
    rw [List.getD_eq_getElem _ _ hi', List.getD_eq_getElem _ _ hi]
    rw [show (stripIndices versions idxs ks)[i] =
      (fun i version => if idxs.contains i then
        { version with hparams := removeKeys version.hparams ks } else version) i versions[i]
      from List.getElem_mapIdx]
    simp only [hmem]
    rfl
  · have hlen : versions.length ≤ i := Nat.le_of_not_lt hi
    rw [List.getD_eq_default _ _ hlen,
      List.getD_eq_default _ _ (by rw [stripIndices_length]; exact hlen)]

theorem commonParams_congr (mks : List String) (versions versions' : List VersionData)
    (idxs : List Nat)
    (h : ∀ i ∈ idxs, versions'.getD i default = versions.getD i default) :
    commonParams mks versions' idxs = commonParams mks versions idxs := by
  cases idxs with
  | nil => rfl
  | cons i0 rest =>
    simp only [commonParams]
    rw [h i0 (List.mem_cons_self i0 rest)]
    apply List.filter_congr
    intro kv _
    congr 1
    apply allCongr
    intro i hi
    rw [h i (List.mem_cons_of_mem i0 hi)]

theorem bucketInsert_mem_idx :
    ∀ (bs : List (String × List Nat)) (k : String) (i : Nat),
      ∀ b' ∈ bucketInsert bs k i, ∀ x ∈ b'.2,
        (∃ b0 ∈ bs, b0.1 = b'.1 ∧ x ∈ b0.2) ∨ (x = i ∧ b'.1 = k)
  | [], k, i => by
      intro b' hb' x hx
      rw [bucketInsert] at hb'
      rcases List.mem_singleton.mp hb' with rfl
      simp only [List.mem_singleton] at hx
      exact Or.inr ⟨hx, rfl⟩
  | (k0, is0) :: rest, k, i => by
      intro b' hb' x hx
      rw [bucketInsert] at hb'
      by_cases hk : (k0 == k) = true
      · rw [if_pos hk] at hb'
        rcases List.mem_cons.mp hb' with rfl | hb'
        · rcases List.mem_append.mp hx with hx | hx
          · exact Or.inl ⟨(k0, is0), List.mem_cons_self _ _, rfl, hx⟩
          · simp only [List.mem_singleton] at hx
            exact Or.inr ⟨hx, beq_iff_eq.mp hk⟩
        · exact Or.inl ⟨b', List.mem_cons_of_mem _ hb', rfl, hx⟩
      · rw [if_neg hk] at hb'
        rcases List.mem_cons.mp hb' with rfl | hb'
        · exact Or.inl ⟨(k0, is0), List.mem_cons_self _ _, rfl, hx⟩
        · rcases bucketInsert_mem_idx rest k i b' hb' x hx with ⟨b0, hb0, hfst, hxb⟩ | h
          · exact Or.inl ⟨b0, List.mem_cons_of_mem _ hb0, hfst, hxb⟩
          · exact Or.inr h

theorem computeBuckets_foldl_prop (mks : List String) (versions : List VersionData) :
    ∀ (js : List Nat) (bs : List (String × List Nat)),
      (∀ b ∈ bs, ∀ x ∈ b.2, x < versions.length ∧
        mkGroupKey mks (versions.getD x default).hparams = some b.1) →
      (∀ j ∈ js, j < versions.length) →
      ∀ b ∈ js.foldl (fun bs i =>
          match mkGroupKey mks (versions.getD i default).hparams with
          | some key => bucketInsert bs key i
          | none => bs) bs,
        ∀ x ∈ b.2, x < versions.length ∧
          mkGroupKey mks (versions.getD x default).hparams = some b.1 := by
  intro js
  induction js with
  | nil =>
    intro bs hbs _
    exact hbs
  | cons j js ih =>
    intro bs hbs hjs
    rw [List.foldl_cons]
    apply ih
    · cases hkey : mkGroupKey mks (versions.getD j default).hparams with
      | none =>
        simp only [hkey]
        exact hbs
      | some key =>
        simp only [hkey]
        intro b' hb' x hx
        rcases bucketInsert_mem_idx bs key j b' hb' x hx with ⟨b0, hb0, hfst, hxb⟩ | ⟨hxj, hfst⟩
        · have h0 := hbs b0 hb0 x hxb
          exact ⟨h0.1, hfst ▸ h0.2⟩
        · refine ⟨?_, ?_⟩
          · rw [hxj]
            exact hjs _ (List.mem_cons_self _ _)
          · rw [hfst, hxj, hkey]
    · exact fun j' hj' => hjs j' (List.mem_cons_of_mem j hj')

theorem computeBuckets_prop (mks : List String) (versions : List VersionData) :
    ∀ b ∈ computeBuckets mks versions, ∀ x ∈ b.2,
      x < versions.length ∧
        mkGroupKey mks (versions.getD x default).hparams = some b.1 := by
  rw [computeBuckets]
  apply computeBuckets_foldl_prop mks versions (List.range versions.length) []
  · intro b hb
    exact absurd hb (List.not_mem_nil b)
  · exact fun j hj => List.mem_range.mp hj

theorem bucketInsert_flat_perm (bs : List (String × List Nat)) (k : String) (i : Nat) :
    List.Perm ((bucketInsert bs k i).flatMap fun b => b.2)
      ((bs.flatMap fun b => b.2) ++ [i]) := by
  induction bs with
  | nil => simp [bucketInsert]
  | cons b0 rest ih =>
    obtain ⟨k0, is0⟩ := b0
    rw [bucketInsert]
    split
    · simp only [List.flatMap_cons, List.append_assoc]
      exact List.Perm.append_left is0 (List.perm_append_singleton i _).symm
    · simp only [List.flatMap_cons, List.append_assoc]
      exact List.Perm.append_left is0 ih

theorem computeBuckets_flat_nodup_aux (mks : List String) (versions : List VersionData) :
    ∀ (js : List Nat) (bs : List (String × List Nat)),
      ((bs.flatMap fun b => b.2) ++ js).Nodup →
      ((js.foldl (fun bs i =>
          match mkGroupKey mks (versions.getD i default).hparams with
          | some key => bucketInsert bs key i
          | none => bs) bs).flatMap fun b => b.2).Nodup := by
  intro js
  induction js with
  | nil =>
    intro bs hnd
    simpa using hnd
  | cons j js ih =>
    intro bs hnd
    rw [List.foldl_cons]
    apply ih
    cases hkey : mkGroupKey mks (versions.getD j default).hparams with
    | none =>
      simp only [hkey]
      exact List.Sublist.nodup
        (List.Sublist.append_left (List.sublist_cons_self j js) _) hnd
    | some key =>
      simp only [hkey]
      have hperm : List.Perm
          (((bucketInsert bs key j).flatMap fun b => b.2) ++ js)
          ((bs.flatMap fun b => b.2) ++ j :: js) := by
        refine List.Perm.trans (List.Perm.append_right js (bucketInsert_flat_perm bs key j)) ?_
        rw [List.append_assoc]
        exact List.Perm.refl _
      exact (List.Perm.nodup_iff hperm).mpr hnd

theorem computeBuckets_flat_nodup (mks : List String) (versions : List VersionData) :
    ((computeBuckets mks versions).flatMap fun b => b.2).Nodup := by
  rw [computeBuckets]
  apply computeBuckets_flat_nodup_aux mks versions (List.range versions.length) []
  simpa using List.nodup_range versions.length

theorem bucketInsert_keys_mem :
    ∀ (bs : List (String × List Nat)) (k : String) (i : Nat) (k' : String),
      k' ∈ (bucketInsert bs k i).map Prod.fst → k' ∈ bs.map Prod.fst ∨ k' = k
  | [], k, i, k' => by
      intro h
      rw [bucketInsert] at h
      simp at h
      exact Or.inr h
  | (k0, is0) :: rest, k, i, k' => by
      intro h
      rw [bucketInsert] at h
      by_cases hk : (k0 == k) = true
      · rw [if_pos hk] at h
        simp only [List.map_cons, List.mem_cons] at h ⊢
        exact Or.inl h
      · rw [if_neg hk] at h
        simp only [List.map_cons, List.mem_cons] at h ⊢
        rcases h with rfl | h
        · exact Or.inl (Or.inl rfl)
        · rcases bucketInsert_keys_mem rest k i k' h with h | h
          · exact Or.inl (Or.inr h)
          · exact Or.inr h

theorem bucketInsert_keys_nodup :
    ∀ (bs : List (String × List Nat)) (k : String) (i : Nat),
      (bs.map Prod.fst).Nodup → ((bucketInsert bs k i).map Prod.fst).Nodup
  | [], k, i => by
      intro _
      simp [bucketInsert]
  | (k0, is0) :: rest, k, i => by
      intro hnd
      simp only [List.map_cons, List.nodup_cons] at hnd
      rw [bucketInsert]
      by_cases hk : (k0 == k) = true
      · rw [if_pos hk]
        simp only [List.map_cons, List.nodup_cons]
        exact hnd
      · rw [if_neg hk]
        simp only [List.map_cons, List.nodup_cons]
        refine ⟨?_, bucketInsert_keys_nodup rest k i hnd.2⟩
        intro hmem
        rcases bucketInsert_keys_mem rest k i k0 hmem with h | h
        · exact hnd.1 h
        · rw [h] at hk
          simp at hk

theorem computeBuckets_keys_nodup_aux (mks : List String) (versions : List VersionData) :
    ∀ (js : List Nat) (bs : List (String × List Nat)),
      (bs.map Prod.fst).Nodup →
      ((js.foldl (fun bs i =>
          match mkGroupKey mks (versions.getD i default).hparams with
          | some key => bucketInsert bs key i
          | none => bs) bs).map Prod.fst).Nodup := by
  intro js
  induction js with
  | nil =>
    intro bs hnd
    exact hnd
  | cons j js ih =>
    intro bs hnd
    rw [List.foldl_cons]
    apply ih
    cases hkey : mkGroupKey mks (versions.getD j default).hparams with
    | none =>
      simp only [hkey]
      exact hnd
    | some key =>
      simp only [hkey]
      exact bucketInsert_keys_nodup bs key j hnd

theorem computeBuckets_keys_nodup (mks : List String) (versions : List VersionData) :
    ((computeBuckets mks versions).map Prod.fst).Nodup := by
  rw [computeBuckets]
  exact computeBuckets_keys_nodup_aux mks versions (List.range versions.length) []
    List.nodup_nil

theorem containsIffMem {α : Type} [BEq α] [LawfulBEq α] (l : List α) (a : α) :
    l.contains a = true ↔ a ∈ l := List.elem_iff

theorem stripBuckets_cons_pos (mks : List String) (bk : String) (idxs : List Nat)
    (rest : List (String × List Nat)) (versions : List VersionData)
    (h : 1 < idxs.length) :
    stripBuckets mks versions ((bk, idxs) :: rest) =
      ((stripBuckets mks (stripIndices versions idxs
          (Params.keys (commonParams mks versions idxs))) rest).1,
       (bk, commonParams mks versions idxs) ::
         (stripBuckets mks (stripIndices versions idxs
           (Params.keys (commonParams mks versions idxs))) rest).2) := by
  simp only [stripBuckets, if_pos h]

theorem stripBuckets_cons_neg (mks : List String) (bk : String) (idxs : List Nat)
    (rest : List (String × List Nat)) (versions : List VersionData)
    (h : ¬ 1 < idxs.length) :
    stripBuckets mks versions ((bk, idxs) :: rest) = stripBuckets mks versions rest := by
  simp only [stripBuckets, if_neg h]

theorem stripBuckets_spec (mks : List String) :
    ∀ (buckets : List (String × List Nat)) (versions : List VersionData),
      (∀ b ∈ buckets, ∀ i ∈ b.2, i < versions.length) →
      ((buckets.flatMap fun b => b.2).Nodup) →
      (stripBuckets mks versions buckets).1.length = versions.length ∧
      (stripBuckets mks versions buckets).2 =
        buckets.filterMap (fun b => if 1 < b.2.length then
          some (b.1, commonParams mks versions b.2) else none) ∧
      (∀ b ∈ buckets, 1 < b.2.length → ∀ i ∈ b.2,
        (stripBuckets mks versions buckets).1.getD i default =
          { versions.getD i default with
            hparams := removeKeys (versions.getD i default).hparams
              (Params.keys (commonParams mks versions b.2)) }) ∧
      (∀ b ∈ buckets, ¬ (1 < b.2.length) → ∀ i ∈ b.2,
        (stripBuckets mks versions buckets).1.getD i default =
          versions.getD i default) ∧
      (∀ i, i ∉ (buckets.flatMap fun b => b.2) →
        (stripBuckets mks versions buckets).1.getD i default =
          versions.getD i default) := by
  intro buckets
  induction buckets with
  | nil =>
    intro versions _ _
    refine ⟨rfl, rfl, ?_, ?_, ?_⟩ <;> simp [stripBuckets]
  | cons b rest ih =>
    intro versions hb hnd
    obtain ⟨bk, idxs⟩ := b
    have hnd' := hnd
    rw [List.flatMap_cons, List.nodup_append] at hnd'
    have hrest_nd : (rest.flatMap fun b => b.2).Nodup := hnd'.2.1
    have hdisj : ∀ i ∈ idxs, i ∉ (rest.flatMap fun b => b.2) :=
      fun i hi hmem => hnd'.2.2 hi hmem
    by_cases hlen : 1 < idxs.length
    · rw [stripBuckets_cons_pos mks bk idxs rest versions hlen]
      have hlen' : (stripIndices versions idxs
          (Params.keys (commonParams mks versions idxs))).length = versions.length :=
        stripIndices_length versions idxs _
      have hb' : ∀ b' ∈ rest, ∀ i ∈ b'.2,
          i < (stripIndices versions idxs
            (Params.keys (commonParams mks versions idxs))).length := by
        intro b' hb'' i hi
        rw [hlen']
        exact hb b' (List.mem_cons_of_mem _ hb'') i hi
      have ihr := ih (stripIndices versions idxs
        (Params.keys (commonParams mks versions idxs))) hb' hrest_nd
      have hunch : ∀ b' ∈ rest, ∀ i ∈ b'.2,
          (stripIndices versions idxs
            (Params.keys (commonParams mks versions idxs))).getD i default =
          versions.getD i default := by
        intro b' hb'' i hi
        apply stripIndices_getD_notmem
        rcases Bool.eq_false_or_eq_true (idxs.contains i) with hc | hc
        · exact absurd (List.mem_flatMap.mpr ⟨b', hb'', hi⟩)
            (hdisj i ((containsIffMem idxs i).mp hc))
        · exact hc
      refine ⟨?_, ?_, ?_, ?_, ?_⟩
      · rw [ihr.1, hlen']
      · rw [ihr.2.1, List.filterMap_cons]
        simp only [if_pos hlen]
        congr 1
        apply List.filterMap_congr
        intro b' hb''
        by_cases hl : 1 < b'.2.length
        · simp only [if_pos hl]
          rw [commonParams_congr mks versions _ b'.2 (hunch b' hb'')]
        · simp only [if_neg hl]
      · intro b' hb'' hl i hi
        rcases List.mem_cons.mp hb'' with heq | hb''
        · -- head bucket
          have hidx : i ∈ idxs := by
            rw [heq] at hi
            exact hi
          have hnotr : i ∉ (rest.flatMap fun b => b.2) := hdisj i hidx
          rw [ihr.2.2.2.2 i hnotr]
          rw [stripIndices_getD_mem versions idxs _ i
            (hb (bk, idxs) (List.mem_cons_self _ _) i hidx)
            ((containsIffMem idxs i).mpr hidx)]
          rw [heq]
        · rw [ihr.2.2.1 b' hb'' hl i hi, hunch b' hb'' i hi,
            commonParams_congr mks versions _ b'.2 (hunch b' hb'')]
      · intro b' hb'' hl i hi
        rcases List.mem_cons.mp hb'' with heq | hb''
        · exfalso
          rw [heq] at hl
          exact hl hlen
        · rw [ihr.2.2.2.1 b' hb'' hl i hi, hunch b' hb'' i hi]
      · intro i hi
        rw [List.flatMap_cons, List.mem_append] at hi
        push_neg at hi
        rw [ihr.2.2.2.2 i hi.2]
        apply stripIndices_getD_notmem
        rcases Bool.eq_false_or_eq_true (idxs.contains i) with hc | hc
        · exact absurd ((containsIffMem idxs i).mp hc) hi.1
        · exact hc
    · rw [stripBuckets_cons_neg mks bk idxs rest versions hlen]
      have hb' : ∀ b' ∈ rest, ∀ i ∈ b'.2, i < versions.length :=
        fun b' hb'' i hi => hb b' (List.mem_cons_of_mem _ hb'') i hi
      have ihr := ih versions hb' hrest_nd
      refine ⟨ihr.1, ?_, ?_, ?_, ?_⟩
      · rw [ihr.2.1, List.filterMap_cons]
        simp only [if_neg hlen]
      · intro b' hb'' hl i hi
        rcases List.mem_cons.mp hb'' with heq | hb''
        · exfalso
          rw [heq] at hl
          exact hlen hl
        · exact ihr.2.2.1 b' hb'' hl i hi
      · intro b' hb'' hl i hi
        rcases List.mem_cons.mp hb'' with heq | hb''
        · have hidx : i ∈ idxs := by
            rw [heq] at hi
            exact hi
          exact ihr.2.2.2.2 i (hdisj i hidx)
        · exact ihr.2.2.2.1 b' hb'' hl i hi
      · intro i hi
        rw [List.flatMap_cons, List.mem_append] at hi
        push_neg at hi
        exact ihr.2.2.2.2 i hi.2

theorem commonParams_keys_not_mk (mks : List String) (versions : List VersionData)
    (idxs : List Nat) (k : String)
    (hk : k ∈ Params.keys (commonParams mks versions idxs)) : k ∉ mks := by
  cases idxs with
  | nil => simp [commonParams, Params.keys] at hk
  | cons i0 rest =>
    rcases List.mem_map.mp hk with ⟨kv, hkv, hfst⟩
    rcases List.mem_filter.mp hkv with ⟨_, hpred⟩
    rw [Bool.and_eq_true] at hpred
    intro hmk
    have hc : mks.contains kv.1 = true := (containsIffMem mks kv.1).mpr (hfst ▸ hmk)
    rw [hc] at hpred
    exact Bool.noConfusion hpred.1

theorem commonParams_keys_iff (mks : List String) (versions : List VersionData)
    (i0 : Nat) (rest : List Nat) (hrest : rest ≠ [])
    (hWF : ∀ i ∈ i0 :: rest, Params.WFKeys (versions.getD i default).hparams)
    (k : String) :
    k ∈ Params.keys (commonParams mks versions (i0 :: rest)) ↔
      (k ∉ mks ∧
       (∀ i ∈ i0 :: rest, ∃ v,
         Params.get? (versions.getD i default).hparams k = some v) ∧
       (∀ i ∈ i0 :: rest, ∀ j ∈ i0 :: rest, ∀ vi vj,
         Params.get? (versions.getD i default).hparams k = some vi →
         Params.get? (versions.getD j default).hparams k = some vj →
         ParameterValue.rustEq vi vj = true)) := by
  constructor
  · intro hk
    rcases List.mem_map.mp hk with ⟨kv, hkv, hfst⟩
    obtain ⟨k', v⟩ := kv
    simp only at hfst
    subst hfst
    rcases List.mem_filter.mp hkv with ⟨hmem0, hpred⟩
    rw [Bool.and_eq_true, List.all_eq_true] at hpred
    obtain ⟨hnotmk, hall⟩ := hpred
    have hget0 : Params.get? (versions.getD i0 default).hparams k' = some v :=
      Params.get?_of_mem (hWF i0 (List.mem_cons_self i0 rest)) hmem0
    have hrestget : ∀ i ∈ rest, ∃ vi,
        Params.get? (versions.getD i default).hparams k' = some vi ∧
          ParameterValue.rustEq vi v = true := by
      intro i hi
      have hai := hall i hi
      cases hgi : Params.get? (versions.getD i default).hparams k' with
      | none =>
        rw [hgi] at hai
        exact Bool.noConfusion hai
      | some ov =>
        rw [hgi] at hai
        exact ⟨ov, rfl, hai⟩
    obtain ⟨r, hr⟩ : ∃ r, r ∈ rest := by
      cases rest with
      | nil => exact absurd rfl hrest
      | cons a l => exact ⟨a, List.mem_cons_self a l⟩
    obtain ⟨vr, _, hvreq⟩ := hrestget r hr
    have hnfv : ParameterValue.nanFree v = true := by
      have hvv := (ParameterValue.rustEq_iff vr v).mp hvreq
      rw [← hvv.1]
      exact hvv.2
    have hvals : ∀ i ∈ i0 :: rest, ∀ vi,
        Params.get? (versions.getD i default).hparams k' = some vi → vi = v := by
      intro i hi vi hvi
      rcases List.mem_cons.mp hi with rfl | hi
      · rw [hget0] at hvi
        cases hvi
        rfl
      · obtain ⟨ov, hov, hoveq⟩ := hrestget i hi
        rw [hov] at hvi
        cases hvi
        exact ((ParameterValue.rustEq_iff vi v).mp hoveq).1
    refine ⟨?_, ?_, ?_⟩
    · intro hmk
      have hc : mks.contains k' = true := (containsIffMem mks k').mpr hmk
      rw [hc] at hnotmk
      exact Bool.noConfusion hnotmk
    · intro i hi
      rcases List.mem_cons.mp hi with rfl | hi
      · exact ⟨v, hget0⟩
      · obtain ⟨vi, hvi, _⟩ := hrestget i hi
        exact ⟨vi, hvi⟩
    · intro i hi j hj vi vj hvi hvj
      rw [hvals i hi vi hvi, hvals j hj vj hvj]
      exact (ParameterValue.rustEq_iff v v).mpr ⟨rfl, hnfv⟩
  · rintro ⟨hnotmk, hex, hpair⟩
    obtain ⟨v, hv⟩ := hex i0 (List.mem_cons_self i0 rest)
    have hmem0 : (k, v) ∈ (versions.getD i0 default).hparams :=
      Params.mem_of_get?_some hv
    apply List.mem_map.mpr
    refine ⟨(k, v), ?_, rfl⟩
    apply List.mem_filter.mpr
    refine ⟨hmem0, ?_⟩
    rw [Bool.and_eq_true]
    constructor
    · rcases Bool.eq_false_or_eq_true (mks.contains k) with hc | hc
      · exact absurd ((containsIffMem mks k).mp hc) hnotmk
      · rw [hc]
        rfl
    · rw [List.all_eq_true]
      intro i hi
      obtain ⟨vi, hvi⟩ := hex i (List.mem_cons_of_mem i0 hi)
      rw [hvi]
      exact hpair i (List.mem_cons_of_mem i0 hi) i0 (List.mem_cons_self i0 rest) vi v hvi hv

theorem filterMap_length_eq_isSome {α β : Type} (f : α → Option β) :
    ∀ l : List α, (List.filterMap f l).length = l.length →
      ∀ a ∈ l, (f a).isSome = true
  | [] => by
      intro _ a ha
      exact absurd ha (List.not_mem_nil a)
  | a :: l => by
      intro hlen b hb
      rw [List.filterMap_cons] at hlen
      cases hfa : f a with
      | none =>
        simp only [hfa, List.length_cons] at hlen
        have hle := List.length_filterMap_le f l
        omega
      | some v =>
        simp only [hfa, List.length_cons] at hlen
        rcases List.mem_cons.mp hb with rfl | hb
        · rw [hfa]
          rfl
        · exact filterMap_length_eq_isSome f l (by omega) b hb

theorem mkGroupKey_contains (mks : List String) (hp : Params) (bk : String)
    (h : mkGroupKey mks hp = some bk) :
    ∀ mk ∈ mks, Params.containsKey hp mk = true := by
  simp only [mkGroupKey] at h
  split at h
  · rename_i hlen
    intro mk hmk
    have hsome := filterMap_length_eq_isSome _ mks hlen mk hmk
    cases hget : Params.get? hp mk with
    | none =>
      rw [hget] at hsome
      exact Bool.noConfusion hsome
    | some v =>
      rw [Params.containsKey, hget]
      rfl
  · exact Option.noConfusion h

theorem eq_of_fst_eq_of_keys_nodup {α β : Type} {l : List (α × β)}
    (hnd : (l.map Prod.fst).Nodup) {b1 b2 : α × β} (h1 : b1 ∈ l) (h2 : b2 ∈ l)
    (hfst : b1.1 = b2.1) : b1 = b2 := by
  rcases List.mem_iff_getElem.mp h1 with ⟨i, hi, hbi⟩
  rcases List.mem_iff_getElem.mp h2 with ⟨j, hj, hbj⟩
  have hmi : (l.map Prod.fst).get ⟨i, by simpa using hi⟩ = b1.1 := by simp [hbi]
  have hmj : (l.map Prod.fst).get ⟨j, by simpa using hj⟩ = b2.1 := by simp [hbj]
  simp only [List.get_eq_getElem] at hmi hmj
  have hij : i = j := (List.Nodup.getElem_inj_iff hnd).mp (by rw [hmi, hmj, hfst])
  subst hij
  rw [← hbi, ← hbj]

/-- C5: for every main-key bucket of the grouping pass (the buckets of
`computeBuckets`) with more than one member: the common-attributes table
holds, under the bucket key, exactly the non-main-key attributes whose value
is exactly equal (Rust `==` via `rustEq`, not tolerant) across ALL members
of the bucket; after stripping, no member contains any stripped key while
every member still contains all main-key attributes.  Buckets of size one
contribute nothing to the table and their member is left unchanged.  `hWF`
is the hash-map invariant of the records' attribute mappings. -/
theorem C5_common_attribute_stripping (mks : List String)
    (versions : List VersionData)
    (hWF : ∀ v ∈ versions, Params.WFKeys v.hparams) :
    ∀ bk idxs, (bk, idxs) ∈ computeBuckets mks versions →
      (1 < idxs.length →
        ((bk, commonParams mks versions idxs) ∈ (stripCommonMainKey mks versions).2 ∧
         (∀ k, k ∈ Params.keys (commonParams mks versions idxs) ↔
           (k ∉ mks ∧
            (∀ i ∈ idxs, ∃ v,
              Params.get? (versions.getD i default).hparams k = some v) ∧
            (∀ i ∈ idxs, ∀ j ∈ idxs, ∀ vi vj,
              Params.get? (versions.getD i default).hparams k = some vi →
              Params.get? (versions.getD j default).hparams k = some vj →
              ParameterValue.rustEq vi vj = true))) ∧
         (∀ i ∈ idxs, ∀ k ∈ Params.keys (commonParams mks versions idxs),
           Params.containsKey
             ((stripCommonMainKey mks versions).1.getD i default).hparams k = false) ∧
         (∀ i ∈ idxs, ∀ mk ∈ mks,
           Params.containsKey
             ((stripCommonMainKey mks versions).1.getD i default).hparams mk = true))) ∧
      (idxs.length = 1 →
        ((∀ i ∈ idxs, (stripCommonMainKey mks versions).1.getD i default =
            versions.getD i default) ∧
         bk ∉ ((stripCommonMainKey mks versions).2.map Prod.fst))) := by
  intro bk idxs hmem
  have hbound : ∀ b ∈ computeBuckets mks versions, ∀ i ∈ b.2, i < versions.length :=
    fun b hb i hi => (computeBuckets_prop mks versions b hb i hi).1
  have hflat := computeBuckets_flat_nodup mks versions
  have hspec := stripBuckets_spec mks (computeBuckets mks versions) versions hbound hflat
  have hprop := computeBuckets_prop mks versions (bk, idxs) hmem
  have hunfold : stripCommonMainKey mks versions =
      stripBuckets mks versions (computeBuckets mks versions) := rfl
  constructor
  · intro hlen
    refine ⟨?_, ?_, ?_, ?_⟩
    · rw [hunfold, hspec.2.1]
      exact List.mem_filterMap.mpr ⟨(bk, idxs), hmem, by rw [if_pos hlen]⟩
    · intro k
      cases idxs with
      | nil => simp at hlen
      | cons i0 rest =>
        have hrest : rest ≠ [] := by
          intro hnil
          rw [hnil] at hlen
          simp at hlen
        exact commonParams_keys_iff mks versions i0 rest hrest
          (fun i hi => by
            rw [List.getD_eq_getElem versions default (hprop i hi).1]
            exact hWF _ (List.getElem_mem _)) k
    · intro i hi k hk
      rw [hunfold, hspec.2.2.1 (bk, idxs) hmem hlen i hi]
      exact removeKeys_containsKey_mem ((containsIffMem _ k).mpr hk)
    · intro i hi mk hmk
      rw [hunfold, hspec.2.2.1 (bk, idxs) hmem hlen i hi]
      have hmknotin : (Params.keys (commonParams mks versions idxs)).contains mk
          = false := by
        rcases Bool.eq_false_or_eq_true
            ((Params.keys (commonParams mks versions idxs)).contains mk) with hc | hc
        · exact absurd hmk (commonParams_keys_not_mk mks versions idxs mk
            ((containsIffMem _ mk).mp hc))
        · exact hc
      show Params.containsKey (removeKeys (versions.getD i default).hparams
        (Params.keys (commonParams mks versions idxs))) mk = true
      rw [Params.containsKey, removeKeys_get?_notmem hmknotin]
      exact mkGroupKey_contains mks _ bk (hprop i hi).2 mk hmk
  · intro hlen1
    have hnotlen : ¬ 1 < idxs.length := by omega
    constructor
    · intro i hi
      rw [hunfold]
      exact hspec.2.2.2.1 (bk, idxs) hmem hnotlen i hi
    · intro hbkmem
      rw [hunfold, hspec.2.1] at hbkmem
      rcases List.mem_map.mp hbkmem with ⟨entry, hentry, hfst⟩
      rcases List.mem_filterMap.mp hentry with ⟨b', hb', hsome⟩
      by_cases hl : 1 < b'.2.length
      · rw [if_pos hl] at hsome
        cases hsome
        have hbeq := eq_of_fst_eq_of_keys_nodup
          (computeBuckets_keys_nodup mks versions) hb' hmem hfst
        rw [hbeq] at hl
        simp only at hl
        omega
      · rw [if_neg hl] at hsome
        exact Option.noConfusion hsome

/-- Concrete records for the C5 witness: both share main key `m = "a"` and a
common attribute `c = 1`; the second also has a private attribute `d = 2`. -/
def vC5W0 : VersionData :=
  ⟨0, [("m", .basic (.str "a")), ("c", .basic (.int 1))]⟩

/-- Second concrete record for the C5 witness. -/
def vC5W1 : VersionData :=
  ⟨1, [("m", .basic (.str "a")), ("c", .basic (.int 1)), ("d", .basic (.int 2))]⟩

/-- Witness for C5 at records `vC5W0`, `vC5W1` with main keys `["m"]`: the
bucket `"m=a"` holds both records, its common attributes land in the table,
and after stripping, record 0 no longer contains `"c"` but still has `"m"`. -/
theorem C5_common_attribute_stripping_witness :
    (∀ v ∈ [vC5W0, vC5W1], Params.WFKeys v.hparams) ∧
    ("m=a", [0, 1]) ∈ computeBuckets ["m"] [vC5W0, vC5W1] ∧
    ("m=a", commonParams ["m"] [vC5W0, vC5W1] [0, 1]) ∈
      (stripCommonMainKey ["m"] [vC5W0, vC5W1]).2 ∧
    Params.containsKey
      ((stripCommonMainKey ["m"] [vC5W0, vC5W1]).1.getD 0 default).hparams "c"
      = false ∧
    Params.containsKey
      ((stripCommonMainKey ["m"] [vC5W0, vC5W1]).1.getD 0 default).hparams "m"
      = true := by
  have h := C5_common_attribute_stripping ["m"] [vC5W0, vC5W1] (by decide)
    "m=a" [0, 1] (by decide)
  have h1 := h.1 (by decide)
  refine ⟨by decide, by decide, h1.1, ?_, ?_⟩
  · exact h1.2.2.1 0 (by decide) "c" (by decide)
  · exact h1.2.2.2 0 (by decide) "m" (by decide)

end LitExplorer
